import Mathlib

/-!
# Verification of the postpal Post Lifecycle Manager

Shallow embedding of the Zola post service of `en9inerd/postpal`
(`internal/zola/service.go` and the content processor `internal/zola/processor.go`)
together with proofs settling the frozen claims about its specification.

Strings are modelled as Lean `String`s, with all scanning/replacing operations
implemented on the underlying `List Char` so that every definition is
executable and kernel-reducible.  Byte buffers (`[]byte`) are modelled as
`List Nat`.  The on-disk posts directory is modelled explicitly as a list of
entries (loose files and one-level post directories), and the git collaborator
as a log of staging operations that always succeed (its failure modes are an
external collaborator's, out of scope of the modelled core).
-/

namespace Postpal

/-! ## List-of-char string utilities

These mirror the Go standard-library primitives actually used by the source
(`strings.ReplaceAll`, `strings.Split`, `strings.Contains`,
`strings.TrimSpace`, `strings.TrimRight(s, "\n")`, `strings.HasPrefix`),
implemented on `List Char` so that they compute by kernel reduction. -/

/-- First occurrence split: `splitFirst pat s = some (a, b)` iff `s = a ++ pat ++ b`
with `a` of minimal length (leftmost occurrence of `pat`). -/
def splitFirst (pat : List Char) : List Char → Option (List Char × List Char)
  | [] => if pat.isEmpty then some ([], []) else none
  | c :: t =>
    if pat.isPrefixOf (c :: t) then some ([], (c :: t).drop pat.length)
    else match splitFirst pat t with
      | none => none
      | some (a, b) => some (c :: a, b)

theorem splitFirst_spec (pat : List Char) :
    ∀ s a b, splitFirst pat s = some (a, b) → s = a ++ pat ++ b := by
  intro s
  induction s with
  | nil =>
    intro a b h
    by_cases hp : pat.isEmpty
    · simp only [splitFirst, if_pos hp, Option.some.injEq, Prod.mk.injEq] at h
      obtain ⟨ha, hb⟩ := h
      subst ha; subst hb
      simp [List.isEmpty_iff.mp hp]
    · simp [splitFirst, hp] at h
  | cons c t ih =>
    intro a b h
    by_cases hp : pat.isPrefixOf (c :: t)
    · simp only [splitFirst, if_pos hp, Option.some.injEq, Prod.mk.injEq] at h
      obtain ⟨ha, hb⟩ := h
      obtain ⟨r, hr⟩ := List.isPrefixOf_iff_prefix.mp hp
      subst ha
      rw [List.nil_append, ← hb, ← hr, List.drop_left]
    · simp only [splitFirst, if_neg hp] at h
      cases hsp : splitFirst pat t with
      | none => simp only [hsp] at h; cases h
      | some p =>
        obtain ⟨a1, b1⟩ := p
        simp only [hsp, Option.some.injEq, Prod.mk.injEq] at h
        obtain ⟨ha, hb⟩ := h
        subst hb
        have ht := ih a1 b1 hsp
        subst ha
        simp [ht]

theorem splitFirst_length (pat : List Char) (s a b : List Char)
    (h : splitFirst pat s = some (a, b)) : s.length = a.length + pat.length + b.length := by
  have := splitFirst_spec pat s a b h
  subst this
  simp [List.length_append]
  omega

/-- Fuel-driven worker for `replaceAll`.  Every recursive step strictly
shortens the remaining suffix (each match consumes at least the non-empty
pattern), so fuel `s.length` never runs out. -/
def replaceAllF (pat rep : List Char) : Nat → List Char → List Char
  | 0, s => s
  | fuel + 1, s =>
    match splitFirst pat s with
    | none => s
    | some (a, b) => a ++ rep ++ replaceAllF pat rep fuel b

/-- Go `strings.ReplaceAll(s, old, new)` on char lists: single left-to-right
pass replacing non-overlapping leftmost occurrences.  (The Go function with an
empty pattern inserts between every char; the source only ever calls it with
non-empty patterns, and we mirror that by returning `s` unchanged for `[]`.) -/
def replaceAll (pat rep : List Char) (s : List Char) : List Char :=
  if pat.isEmpty then s else replaceAllF pat rep s.length s

/-- Substring containment (Go `strings.Contains`). -/
def containsSub (s pat : List Char) : Bool :=
  match splitFirst pat s with
  | some _ => true
  | none => false

/-- Fuel-driven worker for `splitAll`. -/
def splitAllF (sep : List Char) : Nat → List Char → List (List Char)
  | 0, s => [s]
  | fuel + 1, s =>
    match splitFirst sep s with
    | none => [s]
    | some (a, b) => a :: splitAllF sep fuel b

/-- Go `strings.Split(s, sep)` for non-empty `sep`: splits around every
instance of the separator, keeping empty fields. -/
def splitAll (sep : List Char) (s : List Char) : List (List Char) :=
  if sep.isEmpty then [s] else splitAllF sep s.length s

/-- The set of characters with the Unicode `White_Space` property, which is
what Go's `unicode.IsSpace` (used by `strings.TrimSpace`) tests. -/
def isGoSpace (c : Char) : Bool :=
  let n := c.toNat
  (9 ≤ n && n ≤ 13) || n = 32 || n = 0x85 || n = 0xA0 || n = 0x1680 ||
  (0x2000 ≤ n && n ≤ 0x200A) || n = 0x2028 || n = 0x2029 || n = 0x202F ||
  n = 0x205F || n = 0x3000

/-- Go `strings.TrimSpace` on char lists. -/
def trimSpaceL (s : List Char) : List Char :=
  ((s.dropWhile isGoSpace).reverse.dropWhile isGoSpace).reverse

/-- Go `strings.TrimRight(s, "\n")`: drop every trailing newline. -/
def trimRightNl (s : List Char) : List Char :=
  (s.reverse.dropWhile (· = '\n')).reverse

/-- String wrappers used at the `String` interface of the service. -/
def sContains (s pat : String) : Bool := containsSub s.data pat.data

def sReplaceAll (s pat rep : String) : String := ⟨replaceAll pat.data rep.data s.data⟩

def sSplit (s sep : String) : List String := (splitAll sep.data s.data).map (⟨·⟩)

def trimSpace (s : String) : String := ⟨trimSpaceL s.data⟩

/-- Go `strconv.ParseInt(s, 10, 64)`: optional sign, at least one decimal
digit, and the value must fit in a signed 64-bit integer. -/
def parseInt64 (s : String) : Option Int :=
  let (sign, digits) : Int × List Char :=
    match s.data with
    | '+' :: t => (1, t)
    | '-' :: t => (-1, t)
    | t => (1, t)
  if digits.isEmpty then none
  else if digits.all (·.isDigit) then
    let v : Int := digits.foldl (fun a c => a * 10 + (c.toNat - 48 : Int)) 0
    let r := sign * v
    if -(2 ^ 63) ≤ r ∧ r ≤ 2 ^ 63 - 1 then some r else none
  else none

/-! ## Image classifier (`getImageFormat`, service.go lines 320-341) -/

/-- `getImageFormat` from `service.go`: magic-number sniffing on a byte buffer.
Each guard mirrors one `if` of the Go source (including its length bounds:
the PNG test requires `len(data) >= 8`, GIF `>= 6`, RIFF/WEBP `>= 12`).
The nested WEBP check of the source (`string(data[8:12]) == "WEBP"` inside the
RIFF branch, falling through to the default otherwise) is flattened into a
single conjunction followed by the same default. -/
def getImageFormat (data : List Nat) : String :=
  if data.length < 4 then "jpg"
  else if 4 ≤ data.length ∧ data.getD 0 0 = 0xFF ∧ data.getD 1 0 = 0xD8 ∧
      data.getD 2 0 = 0xFF then "jpg"
  else if 8 ≤ data.length ∧ data.getD 0 0 = 0x89 ∧ data.getD 1 0 = 0x50 ∧
      data.getD 2 0 = 0x4E ∧ data.getD 3 0 = 0x47 then "png"
  else if 6 ≤ data.length ∧ data.getD 0 0 = 0x47 ∧ data.getD 1 0 = 0x49 ∧
      data.getD 2 0 = 0x46 then "gif"
  else if 12 ≤ data.length ∧ data.getD 0 0 = 0x52 ∧ data.getD 1 0 = 0x49 ∧
      data.getD 2 0 = 0x46 ∧ data.getD 3 0 = 0x46 ∧
      (data.drop 8).take 4 = [0x57, 0x45, 0x42, 0x50] then "webp"
  else "jpg"

theorem take3_eq_cons {α : Type} (x y z : α) (l : List α) (h : l.take 3 = [x, y, z]) :
    ∃ t, l = x :: y :: z :: t := by
  match l with
  | [] => simp at h
  | [a] => simp at h
  | [a, b] => simp at h
  | a :: b :: c :: t =>
    simp only [List.take, List.cons.injEq] at h
    obtain ⟨h1, h2, h3, -⟩ := h
    exact ⟨t, by rw [h1, h2, h3]⟩

theorem take4_eq_cons {α : Type} (x y z w : α) (l : List α) (h : l.take 4 = [x, y, z, w]) :
    ∃ t, l = x :: y :: z :: w :: t := by
  match l with
  | [] => simp at h
  | [a] => simp at h
  | [a, b] => simp at h
  | [a, b, c] => simp at h
  | a :: b :: c :: d :: t =>
    simp only [List.take, List.cons.injEq] at h
    obtain ⟨h1, h2, h3, h4, -⟩ := h
    exact ⟨t, by rw [h1, h2, h3, h4]⟩

/-! ## Markup transformer (`ProcessContent`, processor.go)

`ProcessContent` is an ordered pipeline of regex rewrites.  Each regex of the
source is a literal-delimited non-greedy span (`<code>…</code>`,
`<pre><code class="language-X">…</code></pre>`, `<blockquote>…</blockquote>`,
`<spoiler>…</spoiler>`), so leftmost-first matching is: find the first
occurrence of the opening literal, then the first occurrence of the closing
literal after it.  Go iterates the placeholder map with *unspecified* order
when reinserting code blocks, so reinsertion is modelled as a parameter
(`processContentWith`), with `ProcessContent` fixing the extraction
(insertion) order as one admissible choice. -/

def escapeLtGt (s : List Char) : List Char :=
  replaceAll ['>'] "&gt;".data (replaceAll ['<'] "&lt;".data s)

/-- Fuel-driven worker for `escapeInlineCode`. -/
def escapeInlineCodeF : Nat → List Char → List Char
  | 0, s => s
  | fuel + 1, s =>
    match splitFirst "<code>".data s with
    | none => s
    | some (a, rest) =>
      match splitFirst "</code>".data rest with
      | none => s
      | some (mid, rest2) =>
        a ++ "<code>".data ++ escapeLtGt mid ++ "</code>".data ++ escapeInlineCodeF fuel rest2

/-- Stage 1: escape `<` and `>` inside inline `<code>…</code>` spans
(the regex replacement driven by `codeRegex`). -/
def escapeInlineCode (s : List Char) : List Char := escapeInlineCodeF s.length s

def codeBlockOpen : List Char := "<pre><code class=\"language-".data

def codeBlockClose : List Char := "</code></pre>".data

/-- The placeholder `"___CODEBLOCK_" + string(rune('A'+codeIndex)) + "___"`. -/
def placeholder (i : Nat) : List Char :=
  "___CODEBLOCK_".data ++ [Char.ofNat (65 + i)] ++ "___".data

/-- Scan for the language tag: the regex fragment `(.*?)">` — the shortest
run of non-newline characters followed by the literal `">`.  Returns the tag
and the remainder after `">`; `none` when a newline (which `.` cannot match)
or the end of input is reached first. -/
def findLangEnd : List Char → Option (List Char × List Char)
  | [] => none
  | c :: t =>
    if ['"', '>'].isPrefixOf (c :: t) then some ([], (c :: t).drop 2)
    else if c = '\n' then none
    else match findLangEnd t with
      | none => none
      | some (lang, rest) => some (c :: lang, rest)

theorem findLangEnd_spec :
    ∀ s lang rest, findLangEnd s = some (lang, rest) → s = lang ++ ['"', '>'] ++ rest := by
  intro s
  induction s with
  | nil => intro lang rest h; simp [findLangEnd] at h
  | cons c t ih =>
    intro lang rest h
    by_cases hp : ['"', '>'].isPrefixOf (c :: t)
    · simp only [findLangEnd, if_pos hp, Option.some.injEq, Prod.mk.injEq] at h
      obtain ⟨ha, hb⟩ := h
      obtain ⟨r, hr⟩ := List.isPrefixOf_iff_prefix.mp hp
      subst ha
      rw [List.nil_append, ← hb, ← hr]
      have : (['"', '>'] : List Char).length = 2 := rfl
      rw [← this, List.drop_left]
    · simp only [findLangEnd, if_neg hp] at h
      by_cases hn : c = '\n'
      · simp [hn] at h
      · simp only [if_neg hn] at h
        cases hfl : findLangEnd t with
        | none => simp only [hfl] at h; cases h
        | some p =>
          obtain ⟨l1, r1⟩ := p
          simp only [hfl, Option.some.injEq, Prod.mk.injEq] at h
          obtain ⟨ha, hb⟩ := h
          subst hb
          have := ih l1 r1 hfl
          subst ha
          simp [this]

theorem findLangEnd_length (s lang rest : List Char)
    (h : findLangEnd s = some (lang, rest)) :
    s.length = lang.length + 2 + rest.length := by
  have := findLangEnd_spec s lang rest h
  subst this
  simp [List.length_append]
  omega

/-- Stage 2: extract fenced code blocks (the `codeBlockRegex` replacement).
At each position: if the opening literal matches, read the language tag and
the body up to the closing literal, record the rendered fenced block against
a fresh placeholder, emit the placeholder and continue after the match;
otherwise move one character forward.  Returns the rewritten content and the
placeholder table in insertion (extraction) order. -/
def extractCodeBlocksF : Nat → Nat → List Char → List Char × List (List Char × List Char)
  | _, 0, _ => ([], [])
  | i, fuel + 1, s =>
    match s with
    | [] => ([], [])
    | c :: t =>
      if codeBlockOpen.isPrefixOf (c :: t) then
        match findLangEnd ((c :: t).drop codeBlockOpen.length) with
        | none =>
          let r := extractCodeBlocksF i fuel t
          (c :: r.1, r.2)
        | some (lang, rest1) =>
          match splitFirst codeBlockClose rest1 with
          | none =>
            let r := extractCodeBlocksF i fuel t
            (c :: r.1, r.2)
          | some (body, rest2) =>
            let block := "```".data ++ lang ++ ['\n'] ++ trimRightNl body ++ ['\n'] ++ "```".data
            let r := extractCodeBlocksF (i + 1) fuel rest2
            (placeholder i ++ r.1, (placeholder i, block) :: r.2)
      else
        let r := extractCodeBlocksF i fuel t
        (c :: r.1, r.2)

def extractCodeBlocksGo (i : Nat) (s : List Char) :
    List Char × List (List Char × List Char) :=
  extractCodeBlocksF i s.length s

/-- Stage 3: `<blockquote>…</blockquote>` spans get their internal newlines
replaced by `<br>` (the `blockquoteRegex` replacement). -/
def blockquoteStageF : Nat → List Char → List Char
  | 0, s => s
  | fuel + 1, s =>
    match splitFirst "<blockquote>".data s with
    | none => s
    | some (a, rest) =>
      match splitFirst "</blockquote>".data rest with
      | none => s
      | some (mid, rest2) =>
        a ++ "<blockquote>".data ++ replaceAll ['\n'] "<br>".data mid ++
          "</blockquote>".data ++ blockquoteStageF fuel rest2

def blockquoteStage (s : List Char) : List Char := blockquoteStageF s.length s

/-- Stage 4: every newline becomes `"  \n"`, then `"  \n  \n"` collapses to
`"  \n\n"` (the two global `strings.ReplaceAll` calls). -/
def hardBreakStage (s : List Char) : List Char :=
  replaceAll "  \n  \n".data "  \n\n".data (replaceAll ['\n'] "  \n".data s)

/-- Stage 5: reinsert the recorded code blocks, replacing every occurrence of
each placeholder, in the iteration order given by `ord` (Go iterates the map
`codeBlockPlaceholders` in unspecified order). -/
def reinsertBlocks (ord : List (List Char × List Char)) (s : List Char) : List Char :=
  ord.foldl (fun c pb => replaceAll pb.1 pb.2 c) s

/-- Stage 6: `<spoiler>…</spoiler>` becomes `<span class="spoiler">…</span>`
(the `spoilerRegex` replacement, content kept verbatim). -/
def spoilerStageF : Nat → List Char → List Char
  | 0, s => s
  | fuel + 1, s =>
    match splitFirst "<spoiler>".data s with
    | none => s
    | some (a, rest) =>
      match splitFirst "</spoiler>".data rest with
      | none => s
      | some (mid, rest2) =>
        a ++ "<span class=\"spoiler\">".data ++ mid ++ "</span>".data ++ spoilerStageF fuel rest2

def spoilerStage (s : List Char) : List Char := spoilerStageF s.length s

/-- The placeholder table produced for a given content (insertion order). -/
def extractTable (content : String) : List (List Char × List Char) :=
  (extractCodeBlocksGo 0 (escapeInlineCode content.data)).2

/-- `ProcessContent` with the placeholder-map iteration order `ord` made
explicit: stages 1-4, reinsertion in the order `ord`, then the spoiler
rewrite.  Empty input returns empty output without running the pipeline. -/
def processContentWith (ord : List (List Char × List Char)) (content : String) : String :=
  if content = "" then ""
  else
    let s1 := escapeInlineCode content.data
    let s2 := (extractCodeBlocksGo 0 s1).1
    let s3 := blockquoteStage s2
    let s4 := hardBreakStage s3
    let s5 := reinsertBlocks ord s4
    ⟨spoilerStage s5⟩

/-- `ProcessContent` from `processor.go`, with the map iteration order fixed
to insertion order (one admissible order of Go's unspecified map range). -/
def ProcessContent (content : String) : String :=
  processContentWith (extractTable content) content

/-! ## Title/tag extractor (`ExtractTitle` / `RemoveAddressPattern`)

Both use the RE2 regex `(?m)(\s\s\n)?0x[0-9a-fA-F]+\n?$`, where `\s` is
`[\t\n\f\r ]` and, in multiline mode, `$` matches at the end of the text or
before a `\n`.  The matcher below follows leftmost-first (Perl-style)
semantics as implemented by Go's regexp: the optional group is preferred when
present, the `+` is greedy with backtracking against the `\n?$` tail, and
scanning advances one character when no match starts at the current
position. -/

def isHexDigit (c : Char) : Bool :=
  ('0' ≤ c && c ≤ '9') || ('a' ≤ c && c ≤ 'f') || ('A' ≤ c && c ≤ 'F')

/-- RE2 `\s` class: `[\t\n\f\r ]`. -/
def isReSpace (c : Char) : Bool :=
  c = '\t' || c = '\n' || c = '\x0c' || c = '\r' || c = ' '

/-- Match `\n?$` at the current position (multiline `$`): returns the number
of characters consumed (0 or 1), `none` when neither alternative matches. -/
def matchNlEol (p : List Char) : Option Nat :=
  match p with
  | [] => some 0
  | '\n' :: q =>
    match q with
    | [] => some 1
    | d :: _ => if d = '\n' then some 1 else some 0
  | _ => none

/-- Greedy `[0-9a-fA-F]+` followed by `\n?$`: try the longest hex run first,
backtracking one digit at a time; `k` counts the digits still admissible. -/
def tryHexEnd (rest : List Char) : Nat → Option Nat
  | 0 => none
  | k + 1 =>
    match matchNlEol (rest.drop (k + 1)) with
    | some m => some (k + 1 + m)
    | none => tryHexEnd rest k

/-- Match `0x[0-9a-fA-F]+\n?$` at the current position; returns the match
length. -/
def matchAddrCore (s : List Char) : Option Nat :=
  match s with
  | c1 :: c2 :: rest =>
    if c1 = '0' && c2 = 'x' then
      (tryHexEnd rest (rest.takeWhile isHexDigit).length).map (2 + ·)
    else none
  | _ => none

/-- Match the full pattern `(\s\s\n)?0x[0-9a-fA-F]+\n?$` at the current
position: prefer taking the optional group, fall back to the bare core. -/
def matchAddr (s : List Char) : Option Nat :=
  match s with
  | c1 :: c2 :: c3 :: rest =>
    if isReSpace c1 && isReSpace c2 && c3 = '\n' then
      match matchAddrCore rest with
      | some n => some (3 + n)
      | none => matchAddrCore s
    else matchAddrCore s
  | _ => matchAddrCore s

theorem matchAddrCore_pos (s : List Char) (n : Nat) (h : matchAddrCore s = some n) :
    0 < n ∧ s ≠ [] := by
  match s with
  | [] => simp [matchAddrCore] at h
  | [c] => simp [matchAddrCore] at h
  | c1 :: c2 :: rest =>
    refine ⟨?_, by simp⟩
    simp only [matchAddrCore] at h
    by_cases hg : c1 = '0' && c2 = 'x'
    · rw [if_pos hg] at h
      simp only [Option.map_eq_some'] at h
      obtain ⟨m, -, hm⟩ := h
      omega
    · rw [if_neg hg] at h
      cases h

theorem matchAddr_pos (s : List Char) (n : Nat) (h : matchAddr s = some n) :
    0 < n ∧ s ≠ [] := by
  match s with
  | [] => simp [matchAddr, matchAddrCore] at h
  | [c] => simp only [matchAddr] at h; exact ⟨(matchAddrCore_pos _ _ h).1, by simp⟩
  | [c1, c2] => simp only [matchAddr] at h; exact ⟨(matchAddrCore_pos _ _ h).1, by simp⟩
  | c1 :: c2 :: c3 :: rest =>
    refine ⟨?_, by simp⟩
    simp only [matchAddr] at h
    by_cases hg : isReSpace c1 && isReSpace c2 && c3 = '\n'
    · rw [if_pos hg] at h
      cases hmc : matchAddrCore rest with
      | some m => rw [hmc] at h; injection h with h1; omega
      | none => rw [hmc] at h; exact (matchAddrCore_pos _ _ h).1
    · rw [if_neg hg] at h
      exact (matchAddrCore_pos _ _ h).1

/-- `RemoveAddressPattern`'s regex replacement with the empty string: remove
every non-overlapping leftmost match in one left-to-right pass. -/
def removeAddrScanF : Nat → List Char → List Char
  | 0, s => s
  | fuel + 1, s =>
    match matchAddr s with
    | some n => removeAddrScanF fuel (s.drop n)
    | none =>
      match s with
      | [] => []
      | c :: t => c :: removeAddrScanF fuel t

def removeAddrScan (s : List Char) : List Char := removeAddrScanF s.length s

/-- `FindString` for the address regex: the leftmost match, `none` when there
is no match (Go returns `""`, and the source tests `match != ""`; a match is
never empty because the core consumes at least `0x` plus one digit). -/
def findAddrScanF : Nat → List Char → Option (List Char)
  | 0, _ => none
  | fuel + 1, s =>
    match matchAddr s with
    | some n => some (s.take n)
    | none =>
      match s with
      | [] => none
      | _ :: t => findAddrScanF fuel t

def findAddrScan (s : List Char) : Option (List Char) := findAddrScanF (s.length + 1) s

/-- `RemoveAddressPattern` from `processor.go`. -/
def RemoveAddressPattern (content : String) : String :=
  ⟨removeAddrScan content.data⟩

/-- `ExtractTitle` from `processor.go`. -/
def ExtractTitle (content : String) (channelID : String) : String :=
  if content = "" then channelID
  else
    match findAddrScan content.data with
    | some m => channelID ++ " [" ++ trimSpace ⟨m⟩ ++ "]"
    | none => channelID

/-! ## Post record and front-matter builder -/

/-- The `Post` struct of the `zola` package.  `Date` holds the string the
source produces with `post.Date.Format(time.RFC3339)`: the claims under
verification treat the timestamp as opaque, so the model stores the rendered
form directly. -/
structure Post where
  ID : Int
  Title : String
  Content : String
  Date : String
  ImageNames : List String
deriving DecidableEq

/-- The `images = ["a", "b"]` list body: the source's loop writes `", "`
between entries and wraps each name in double quotes. -/
def quoteJoin : List String → String
  | [] => ""
  | [n] => "\"" ++ n ++ "\""
  | n :: rest => "\"" ++ n ++ "\", " ++ quoteJoin rest

/-- `BuildFrontMatter` from `processor.go`: TOML front matter with escaped
title, RFC3339 date, and the `[extra]`/`images` section only when the image
list is non-empty. -/
def BuildFrontMatter (post : Post) : String :=
  "+++\n" ++ "title = \"" ++ sReplaceAll post.Title "\"" "\\\"" ++ "\"\n" ++
  "date = " ++ post.Date ++ "\n\n" ++
  (if post.ImageNames.length > 0 then
    "[extra]\nimages = [" ++ quoteJoin post.ImageNames ++ "]\n"
  else "") ++
  "+++\n\n"

/-! ## Filesystem and git-collaborator model

The posts directory (`s.postsDir`) is modelled explicitly: its immediate
entries are loose files (`<id>.md`) and one-level post directories (`<id>/`
holding `index.md` and media files).  The git collaborator is a log of
staging operations; its own failure modes belong to the out-of-scope
version-control engine, so `Add`/`Remove`/`CommitAndPush` succeed in the
model (on delete the source discards `Remove` errors anyway). -/

inductive FileData where
  | text (s : String)
  | bytes (b : List Nat)
deriving DecidableEq

inductive FSEntry where
  | file (name : String) (data : FileData)
  | dir (name : String) (files : List (String × FileData))
deriving DecidableEq

def FSEntry.name : FSEntry → String
  | .file n _ => n
  | .dir n _ => n

inductive GitOp where
  | add (path : String)
  | remove (path : String)
  | commitPush (msg : String)
deriving DecidableEq

structure FS where
  entries : List FSEntry
  gitOps : List GitOp
deriving DecidableEq

/-- Byte-wise (here: code-point-wise, identical on ASCII names) string
order, as used by `os.ReadDir`'s sorted listing and `sort.Slice`. -/
def charListLe : List Char → List Char → Bool
  | [], _ => true
  | _ :: _, [] => false
  | c :: s, d :: t => if c < d then true else if d < c then false else charListLe s t

def insertSorted (x : String) : List String → List String
  | [] => [x]
  | y :: t => if charListLe x.data y.data then x :: y :: t else y :: insertSorted x t

def sortStrs (l : List String) : List String := l.foldr insertSorted []

/-- `os.ReadDir(s.postsDir)`: the entry names, sorted by filename (Go's
`os.ReadDir` returns a sorted listing). -/
def FS.readDirNames (fs : FS) : List String := sortStrs (fs.entries.map FSEntry.name)

def FS.lookupEntry (fs : FS) (name : String) : Option FSEntry :=
  fs.entries.find? (fun e => e.name == name)

def FS.dirFiles (fs : FS) (name : String) : Option (List (String × FileData)) :=
  match fs.lookupEntry name with
  | some (.dir _ files) => some files
  | _ => none

/-- `os.MkdirAll(postsDir/<name>)`: no-op when the directory exists, error
when a plain file occupies the path, fresh directory otherwise. -/
def FS.mkdirAll (fs : FS) (name : String) : Except String FS :=
  match fs.lookupEntry name with
  | some (.dir _ _) => .ok fs
  | some (.file _ _) => .error "not a directory"
  | none => .ok { fs with entries := fs.entries ++ [.dir name []] }

def replaceFileIn (name : String) (d : FileData) : List FSEntry → List FSEntry
  | [] => [.file name d]
  | e :: rest =>
    if e.name == name then .file name d :: rest else e :: replaceFileIn name d rest

/-- `os.WriteFile(postsDir/<name>)` for a loose file: create or truncate;
errors when a directory occupies the path. -/
def FS.writeLooseFile (fs : FS) (name : String) (d : FileData) : Except String FS :=
  match fs.lookupEntry name with
  | some (.dir _ _) => .error "is a directory"
  | _ => .ok { fs with entries := replaceFileIn name d fs.entries }

def updateDirFiles (fname : String) (d : FileData) :
    List (String × FileData) → List (String × FileData)
  | [] => [(fname, d)]
  | (n, fd) :: rest =>
    if n == fname then (fname, d) :: rest else (n, fd) :: updateDirFiles fname d rest

/-- The per-entry rewrite performed by `writeFileInDir`: directories named
`dname` receive the written file, every other entry is untouched. -/
def writeDirEntry (dname fname : String) (d : FileData) (e : FSEntry) : FSEntry :=
  match e with
  | .dir n files => if n == dname then .dir n (updateDirFiles fname d files) else .dir n files
  | other => other

/-- `os.WriteFile(postsDir/<dname>/<fname>)`: create or truncate inside an
existing post directory; errors when the directory is missing. -/
def FS.writeFileInDir (fs : FS) (dname fname : String) (d : FileData) : Except String FS :=
  match fs.lookupEntry dname with
  | some (.dir _ _) =>
    .ok { fs with entries := fs.entries.map (writeDirEntry dname fname d) }
  | _ => .error "no such directory"

/-- `os.RemoveAll(postsDir/<name>)`: removes the entry (file or directory),
never erring on a missing path. -/
def FS.removeAllEntry (fs : FS) (name : String) : FS :=
  { fs with entries := fs.entries.filter (fun e => !(e.name == name)) }

/-- `os.Remove(postsDir/<name>)` at the delete call site (a loose `.md`
file); the source discards its error, so a missing file is a no-op. -/
def FS.removeFile (fs : FS) (name : String) : FS :=
  { fs with entries := fs.entries.filter (fun e =>
      match e with
      | .file n _ => !(n == name)
      | .dir _ _ => true) }

def FS.gitAdd (fs : FS) (p : String) : FS := { fs with gitOps := fs.gitOps ++ [.add p] }

def FS.gitRemove (fs : FS) (p : String) : FS := { fs with gitOps := fs.gitOps ++ [.remove p] }

def FS.gitCommitPush (fs : FS) (msg : String) : FS :=
  { fs with gitOps := fs.gitOps ++ [.commitPush msg] }

/-- `filepath.Join` for the slash-joined relative paths the service builds. -/
def joinPath (a b : String) : String := a ++ "/" ++ b

/-- Shape observations used by the invariants. -/
def FS.hasLooseMd (fs : FS) (id : Int) : Bool :=
  fs.entries.any (fun e =>
    match e with
    | .file n _ => n == toString id ++ ".md"
    | _ => false)

def FS.hasPostDir (fs : FS) (id : Int) : Bool :=
  fs.entries.any (fun e =>
    match e with
    | .dir n _ => n == toString id
    | _ => false)

def FS.dirHasFile (fs : FS) (dname fname : String) : Bool :=
  match fs.dirFiles dname with
  | some files => files.any (fun p => p.1 == fname)
  | none => false

/-- The service configuration used by the modelled operations.  `postsDir`
is the root of the `FS` model itself; `repoDir`, `exportedDataDir` and the
git service handle are not consulted by the modelled code paths. -/
structure Service where
  relPostsDir : String
  channelID : String
deriving DecidableEq

/-! ## Post directory resolver (`getEditablePostID` / `getPostImageNames`) -/

/-- `getPostImageNames`: list the `image_`-prefixed files of the post's
directory sorted ascending; a missing directory yields the empty list (the
`os.IsNotExist` branch), not an error. -/
def getPostImageNames (fs : FS) (postID : Int) : List String :=
  match fs.dirFiles (toString postID) with
  | none => []
  | some files =>
    sortStrs (((files.map Prod.fst).filter
      (fun n => "image_".data.isPrefixOf n.data)))

/-- The id-harvesting loop of `getEditablePostID`: skip names containing
`"index"`, parse the part before the first `.` when the name has a dot and
the whole name otherwise, and drop unparsable names. -/
def scanPostIDs : List String → List Int
  | [] => []
  | name :: rest =>
    if sContains name "index" then scanPostIDs rest
    else
      let parsed :=
        if containsSub name.data ['.'] then
          parseInt64 ⟨(splitAll ['.'] name.data).headD []⟩
        else parseInt64 name
      match parsed with
      | none => scanPostIDs rest
      | some id => id :: scanPostIDs rest

/-- Two's-complement reduction of an unbounded integer into the `int64`
range `[-2^63, 2^63)`: the value Go's wrapping `int64` arithmetic leaves in
the register when the mathematical result of an operation is `x`. -/
def wrap64 (x : Int) : Int := (x + 2 ^ 63) % 2 ^ 64 - 2 ^ 63

/-- The `abs` helper of service.go.  The negation in its `x < 0` branch is
itself a wrapping `int64` operation, so `abs` of the minimal `int64` stays
negative, exactly as in Go. -/
def absInt (x : Int) : Int := if x < 0 then wrap64 (-x) else x

/-- The closest-id fold of `getEditablePostID` (`closestID`/`minDiff`).
`postID - id` is Go `int64` subtraction, which wraps on overflow. -/
def closestLoop (req : Int) : Int → Int → List Int → Int
  | closest, _, [] => closest
  | closest, minDiff, id :: rest =>
    let diff := absInt (wrap64 (req - id))
    if diff < minDiff then closestLoop req id diff rest
    else closestLoop req closest minDiff rest

/-- `getEditablePostID`: the on-disk post id closest to `postID` under the
wrapped `int64` distance; the requested id itself when no posts exist.  (The
only error path of the source is an unreadable posts directory, which the
model treats as readable.) -/
def getEditablePostID (fs : FS) (postID : Int) : Int :=
  match scanPostIDs fs.readDirNames with
  | [] => postID
  | c :: rest => closestLoop postID c (absInt (wrap64 (postID - c))) rest

/-! ## Post lifecycle service (`CreatePost` / `EditPost` / `DeletePost`)

Each operation mirrors the corresponding method of `service.go` statement by
statement.  Error messages reproduce the `fmt.Errorf` wrapping of the
source.  `DeletePost` returns the final filesystem state *and* the error (Go
returns only the error, but the mutations it performed before failing
persist on disk, which the model must expose). -/

/-- The media-writing loop at the end of `CreatePost` (`for i, mediaFile :=
range mediaFiles`, with `post.ImageNames[i]` supplying the filename). -/
def writeMediaLoop (svc : Service) (postID : Int) :
    List String → List (List Nat) → FS → Except String FS
  | [], _, fs => .ok fs
  | _ :: _, [], fs => .ok fs
  | name :: names, mf :: mfs, fs =>
    match fs.writeFileInDir (toString postID) name (.bytes mf) with
    | .error e => .error ("failed to write image file: " ++ e)
    | .ok fs1 =>
      writeMediaLoop svc postID names mfs
        (fs1.gitAdd (joinPath svc.relPostsDir (joinPath (toString postID) name)))

/-- `CreatePost` from service.go: classify media into `image_<i>.<ext>`
names, pick the physical shape (directory iff media present), run the markup
pipeline, write the post file, stage it, then write and stage each media
file.  (`os.MkdirAll(s.postsDir)` in the loose branch always succeeds in the
model, where the posts root is the `FS` itself.) -/
def Service.CreatePost (svc : Service) (fs : FS) (post : Post)
    (mediaFiles : List (List Nat)) : Except String FS :=
  let imageNames := mediaFiles.enum.map
    (fun p => "image_" ++ toString p.1 ++ "." ++ getImageFormat p.2)
  let post1 := { post with ImageNames := imageNames }
  let prepared : Except String (FS × String) :=
    if post1.ImageNames.length > 0 then
      match fs.mkdirAll (toString post1.ID) with
      | .error e => .error ("failed to create post directory: " ++ e)
      | .ok fs1 => .ok (fs1, joinPath (toString post1.ID) "index.md")
    else
      .ok (fs, toString post1.ID ++ ".md")
  match prepared with
  | .error e => .error e
  | .ok (fs1, filename) =>
    let processedContent := ProcessContent post1.Content
    let post2 :=
      if post1.Title = "" then
        { post1 with Title := ExtractTitle post1.Content svc.channelID }
      else post1
    let processed2 := RemoveAddressPattern processedContent
    let postContent := BuildFrontMatter post2 ++ processed2 ++ "\n"
    let written : Except String FS :=
      if post1.ImageNames.length > 0 then
        fs1.writeFileInDir (toString post1.ID) "index.md" (.text postContent)
      else
        fs1.writeLooseFile (toString post1.ID ++ ".md") (.text postContent)
    match written with
    | .error e => .error ("failed to write post file: " ++ e)
    | .ok fs2 =>
      writeMediaLoop svc post1.ID post1.ImageNames mediaFiles
        (fs2.gitAdd (joinPath svc.relPostsDir filename))

/-- The content-rewriting half of `EditPost` (`if post.Content != ""`):
regenerate or keep the image-name list, run the pipeline, and overwrite the
unit's markup file in directory form iff the unit already has media. -/
def editContentStep (svc : Service) (editablePostID : Int) (imageNames : List String)
    (post1 : Post) (fs : FS) : Except String FS :=
  let numOfMediaFiles := imageNames.length
  if post1.Content ≠ "" then
    let post2 :=
      if numOfMediaFiles > 0 then
        if post1.ImageNames.length > 0 then
          let firstImageName := post1.ImageNames.headD ""
          let parts := splitAll ['.'] firstImageName.data
          let format : String := if parts.length > 1 then ⟨parts.getLastD []⟩ else "jpg"
          let regenerated := (List.range numOfMediaFiles).map
            (fun i => "image_" ++ toString i ++ "." ++ format)
          { post1 with ImageNames := regenerated }
        else { post1 with ImageNames := imageNames }
      else post1
    let processedContent := ProcessContent post2.Content
    let post3 :=
      if post2.Title = "" then
        { post2 with Title := ExtractTitle post2.Content svc.channelID }
      else post2
    let processed2 := RemoveAddressPattern processedContent
    let postContent := BuildFrontMatter post3 ++ processed2 ++ "\n"
    if numOfMediaFiles > 0 then
      match fs.mkdirAll (toString editablePostID) with
      | .error e => .error ("failed to create post directory: " ++ e)
      | .ok fsA =>
        match fsA.writeFileInDir (toString editablePostID) "index.md" (.text postContent) with
        | .error e => .error ("failed to write post file: " ++ e)
        | .ok fsB =>
          .ok (fsB.gitAdd (joinPath svc.relPostsDir
            (joinPath (toString editablePostID) "index.md")))
    else
      match fs.writeLooseFile (toString editablePostID ++ ".md") (.text postContent) with
      | .error e => .error ("failed to write post file: " ++ e)
      | .ok fsB =>
        .ok (fsB.gitAdd (joinPath svc.relPostsDir (toString editablePostID ++ ".md")))
  else .ok fs

/-- The media-appending half of `EditPost` (`if mediaFile != nil`): classify
the buffer, name it by the wrapped requested-minus-resolved offset, ensure the
unit's directory exists, write and stage the file. -/
def editMediaStep (svc : Service) (originalPostID editablePostID : Int)
    (mf : List Nat) (fs1 : FS) : Except String FS :=
  let index := wrap64 (originalPostID - editablePostID)
  let imageFilename := "image_" ++ toString index ++ "." ++ getImageFormat mf
  match fs1.mkdirAll (toString editablePostID) with
  | .error e => .error ("failed to create post directory: " ++ e)
  | .ok fs2 =>
    match fs2.writeFileInDir (toString editablePostID) imageFilename (.bytes mf) with
    | .error e => .error ("failed to write image file: " ++ e)
    | .ok fs3 =>
      .ok (fs3.gitAdd (joinPath svc.relPostsDir
        (joinPath (toString editablePostID) imageFilename)))

/-- `EditPost` from service.go: resolve the nearest existing post id, fetch
its current media names, then run the content half (when content is
supplied) and the media half (when a buffer is supplied). -/
def Service.EditPost (svc : Service) (fs : FS) (post : Post)
    (mediaFile : Option (List Nat)) : Except String FS :=
  let originalPostID := post.ID
  let editablePostID := getEditablePostID fs post.ID
  let imageNames := getPostImageNames fs editablePostID
  let post1 := { post with ID := editablePostID }
  match editContentStep svc editablePostID imageNames post1 fs with
  | .error e => .error e
  | .ok fs1 =>
    match mediaFile with
    | none => .ok fs1
    | some mf => editMediaStep svc originalPostID editablePostID mf fs1

/-- One iteration body of `DeletePost` after a successful id parse: remove
the whole unit directory (staging removal of `index.md` and every media
file) when the unit has media, otherwise remove the loose file and stage its
removal.  (`getPostImageNames` and `os.RemoveAll` are infallible in the
model; the source skips the entry on the former's error and aborts on the
latter's.) -/
def deleteOneStep (svc : Service) (fs : FS) (postID : Int) : FS :=
  let imageNames := getPostImageNames fs postID
  if imageNames.length > 0 then
    let fs1 := fs.removeAllEntry (toString postID)
    let relPostDir := joinPath svc.relPostsDir (toString postID)
    let fs2 := fs1.gitRemove (joinPath relPostDir "index.md")
    imageNames.foldl (fun acc n => acc.gitRemove (joinPath relPostDir n)) fs2
  else
    let filename := toString postID ++ ".md"
    let fs1 := fs.removeFile filename
    fs1.gitRemove (joinPath svc.relPostsDir filename)

/-- The per-entry loop of `DeletePost`: trim each comma-separated field,
silently skip empty fields, abort with `invalid post ID: <entry>` on a parse
failure (keeping the mutations already performed), and otherwise delete the
unit and continue. -/
def deleteLoop (svc : Service) : FS → List String → FS × Option String
  | fs, [] => (fs, none)
  | fs, idStr :: rest =>
    let t := trimSpace idStr
    if t = "" then deleteLoop svc fs rest
    else
      match parseInt64 t with
      | none => (fs, some ("invalid post ID: " ++ t))
      | some postID => deleteLoop svc (deleteOneStep svc fs postID) rest

/-- `DeletePost` from service.go: split the batch on commas, run the
per-entry loop, and commit-and-push with a message listing the ids when the
loop finishes without a parse error. -/
def Service.DeletePost (svc : Service) (fs : FS) (ids : String) : FS × Option String :=
  match deleteLoop svc fs (sSplit ids ",") with
  | (fs1, some e) => (fs1, some e)
  | (fs1, none) => (fs1.gitCommitPush ("Delete post(s): " ++ ids), none)

/-! ## Supporting lemmas about the filesystem model -/

theorem find?_append_of_none {α : Type} (p : α → Bool) :
    ∀ (l1 l2 : List α), l1.find? p = none → (l1 ++ l2).find? p = l2.find? p := by
  intro l1 l2 h
  induction l1 with
  | nil => simp
  | cons a t ih =>
    by_cases hp : p a
    · rw [List.find?_cons_of_pos _ hp] at h; cases h
    · rw [List.find?_cons_of_neg _ hp] at h
      rw [List.cons_append, List.find?_cons_of_neg _ hp]
      exact ih h

theorem updateDirFiles_any (fname : String) (d : FileData) :
    ∀ files : List (String × FileData),
      (updateDirFiles fname d files).any (fun p => p.1 == fname) = true := by
  intro files
  induction files with
  | nil => simp [updateDirFiles]
  | cons p rest ih =>
    obtain ⟨n, fd⟩ := p
    by_cases hn : (n == fname) = true
    · simp [updateDirFiles, hn]
    · simp only [updateDirFiles]
      rw [if_neg (by simp_all)]
      simp only [List.any_cons, ih, Bool.or_true]

theorem writeDirEntry_name (dname fname : String) (d : FileData) (e : FSEntry) :
    (writeDirEntry dname fname d e).name = e.name := by
  cases e with
  | file n fd => rfl
  | dir n files =>
    simp only [writeDirEntry]
    split <;> rfl

theorem find?_cons_eq {α : Type} (p : α → Bool) (a : α) (l : List α) :
    (a :: l).find? p = if p a then some a else l.find? p := by
  cases hpa : p a <;> simp [List.find?, hpa]

theorem find?_map_writeDir (dname fname : String) (d : FileData) :
    ∀ (entries : List FSEntry) (n : String) (files : List (String × FileData)),
      entries.find? (fun e => e.name == dname) = some (.dir n files) →
      (entries.map (writeDirEntry dname fname d)).find? (fun e => e.name == dname) =
        some (.dir n (updateDirFiles fname d files)) := by
  intro entries
  induction entries with
  | nil => intro n files h; simp at h
  | cons e rest ih =>
    intro n files h
    rw [find?_cons_eq] at h
    simp only [List.map_cons]
    rw [find?_cons_eq]
    simp only [writeDirEntry_name]
    by_cases hp : (FSEntry.name e == dname) = true
    · rw [if_pos hp] at h
      rw [if_pos hp]
      injection h with he
      subst he
      have hn : (n == dname) = true := hp
      simp [writeDirEntry, hn]
    · rw [if_neg hp] at h
      rw [if_neg hp]
      exact ih n files h

theorem writeFileInDir_ok_dirHasFile (fs fs2 : FS) (dname fname : String) (d : FileData)
    (h : fs.writeFileInDir dname fname d = .ok fs2) : fs2.dirHasFile dname fname = true := by
  unfold FS.writeFileInDir at h
  cases hl : fs.lookupEntry dname with
  | none => rw [hl] at h; cases h
  | some e =>
    cases e with
    | file n fd => rw [hl] at h; cases h
    | dir n files =>
      rw [hl] at h
      injection h with h2
      subst h2
      have hfind := find?_map_writeDir dname fname d fs.entries n files hl
      simp only [FS.dirHasFile, FS.dirFiles, FS.lookupEntry, hfind]
      exact updateDirFiles_any fname d files

theorem dirHasFile_gitAdd (fs : FS) (p dname fname : String) :
    (fs.gitAdd p).dirHasFile dname fname = fs.dirHasFile dname fname := rfl

/-- Matching predicate of `hasLooseMd`: only loose files named `<id>.md`. -/
def looseMdPred (id : Int) (e : FSEntry) : Bool :=
  match e with
  | .file n _ => n == toString id ++ ".md"
  | _ => false

theorem hasLooseMd_eq_any (fs : FS) (id : Int) :
    fs.hasLooseMd id = fs.entries.any (looseMdPred id) := rfl

theorem looseMdPred_writeDirEntry (dname fname : String) (d : FileData) (id : Int)
    (e : FSEntry) : looseMdPred id (writeDirEntry dname fname d e) = looseMdPred id e := by
  cases e with
  | file n fd => rfl
  | dir n files =>
    simp only [writeDirEntry]
    split <;> rfl

theorem writeFileInDir_hasLooseMd (fs fs2 : FS) (dname fname : String) (d : FileData)
    (id : Int) (h : fs.writeFileInDir dname fname d = .ok fs2) :
    fs2.hasLooseMd id = fs.hasLooseMd id := by
  unfold FS.writeFileInDir at h
  cases hl : fs.lookupEntry dname with
  | none => rw [hl] at h; cases h
  | some e =>
    cases e with
    | file n fd => rw [hl] at h; cases h
    | dir n files =>
      rw [hl] at h
      injection h with h2
      subst h2
      simp only [hasLooseMd_eq_any, List.any_map]
      congr 1
      funext e
      exact looseMdPred_writeDirEntry dname fname d id e

theorem mkdirAll_none_ok (fs : FS) (dname : String) (h : fs.lookupEntry dname = none) :
    fs.mkdirAll dname = .ok { fs with entries := fs.entries ++ [.dir dname []] } := by
  unfold FS.mkdirAll
  rw [h]

theorem lookup_append_dir (fs : FS) (dname : String) (h : fs.lookupEntry dname = none) :
    FS.lookupEntry { fs with entries := fs.entries ++ [.dir dname []] } dname =
      some (.dir dname []) := by
  simp only [FS.lookupEntry] at h ⊢
  rw [find?_append_of_none _ _ _ h]
  rw [List.find?_cons_of_pos _ (by simp [FSEntry.name])]

theorem hasLooseMd_append_dir (es : List FSEntry) (g : List GitOp) (dname : String) (id : Int) :
    FS.hasLooseMd ⟨es ++ [.dir dname []], g⟩ id = FS.hasLooseMd ⟨es, g⟩ id := by
  simp only [hasLooseMd_eq_any, List.any_append, List.any_cons, List.any_nil]
  simp [looseMdPred]

theorem hasLooseMd_map_writeDir (es : List FSEntry) (g : List GitOp) (dn fn : String)
    (c : FileData) (id : Int) :
    FS.hasLooseMd ⟨es.map (writeDirEntry dn fn c), g⟩ id = FS.hasLooseMd ⟨es, g⟩ id := by
  simp only [hasLooseMd_eq_any, List.any_map]
  congr 1
  funext e
  exact looseMdPred_writeDirEntry dn fn c id e

theorem hasLooseMd_gitAdd (fs : FS) (p : String) (id : Int) :
    (fs.gitAdd p).hasLooseMd id = fs.hasLooseMd id := rfl

theorem hasPostDir_gitAdd (fs : FS) (p : String) (id : Int) :
    (fs.gitAdd p).hasPostDir id = fs.hasPostDir id := rfl

theorem find?_append_dir (es : List FSEntry) (dn : String)
    (h : es.find? (fun e => e.name == dn) = none) :
    (es ++ [FSEntry.dir dn []]).find? (fun e => e.name == dn) =
      some (FSEntry.dir dn []) := by
  rw [find?_append_of_none _ _ _ h]
  rw [List.find?_cons_of_pos _ (by simp [FSEntry.name])]

/-- Writing into the directory freshly appended by `mkdirAll` succeeds and
yields the mapped entry list. -/
theorem writeInDir_append_ok (fs : FS) (dname : String)
    (hnone : fs.lookupEntry dname = none) (fname : String) (c : FileData) :
    FS.writeFileInDir { fs with entries := fs.entries ++ [FSEntry.dir dname []] } dname fname c =
      .ok ⟨(fs.entries ++ [FSEntry.dir dname []]).map (writeDirEntry dname fname c),
        fs.gitOps⟩ := by
  unfold FS.writeFileInDir
  rw [lookup_append_dir fs dname hnone]

/-- The media half of `EditPost` on a state without any entry named
`<editID>`: it succeeds, creates the unit directory with the new media file,
and leaves every loose `.md` file untouched. -/
theorem editMediaStep_promote (svc : Service) (origID editID : Int) (b : List Nat) (fs : FS)
    (hnone : fs.lookupEntry (toString editID) = none) :
    ∃ fs2, editMediaStep svc origID editID b fs = .ok fs2 ∧
      (∀ id : Int, fs2.hasLooseMd id = fs.hasLooseMd id) ∧
      fs2.hasPostDir editID = true := by
  simp only [editMediaStep, mkdirAll_none_ok fs (toString editID) hnone,
    writeInDir_append_ok fs (toString editID) hnone]
  refine ⟨_, rfl, ?_, ?_⟩
  · intro id
    rw [hasLooseMd_gitAdd]
    have h1 : FS.hasLooseMd
        ⟨(fs.entries ++ [FSEntry.dir (toString editID) []]).map
          (writeDirEntry (toString editID)
            ("image_" ++ toString (wrap64 (origID - editID)) ++ "." ++ getImageFormat b)
            (.bytes b)), fs.gitOps⟩ id =
        FS.hasLooseMd ⟨fs.entries ++ [FSEntry.dir (toString editID) []], fs.gitOps⟩ id :=
      hasLooseMd_map_writeDir _ _ _ _ _ _
    rw [h1, hasLooseMd_append_dir]
  · rw [hasPostDir_gitAdd]
    have hfind := find?_map_writeDir (toString editID)
      ("image_" ++ toString (wrap64 (origID - editID)) ++ "." ++ getImageFormat b) (.bytes b)
      (fs.entries ++ [FSEntry.dir (toString editID) []]) (toString editID) []
      (find?_append_dir fs.entries (toString editID) hnone)
    have hmem := List.mem_of_find?_eq_some hfind
    simp only [FS.hasPostDir]
    rw [List.any_eq_true]
    exact ⟨_, hmem, by simp⟩

theorem closestLoop_spec (req : Int) :
    ∀ (rest : List Int) (closest : Int),
      closestLoop req closest (absInt (wrap64 (req - closest))) rest ∈ closest :: rest ∧
      absInt (wrap64 (req - closestLoop req closest (absInt (wrap64 (req - closest))) rest)) ≤
        absInt (wrap64 (req - closest)) ∧
      ∀ id ∈ rest,
        absInt (wrap64 (req - closestLoop req closest (absInt (wrap64 (req - closest))) rest)) ≤
          absInt (wrap64 (req - id)) := by
  intro rest
  induction rest with
  | nil =>
    intro closest
    refine ⟨by simp [closestLoop], by simp [closestLoop], by simp⟩
  | cons id rest ih =>
    intro closest
    simp only [closestLoop]
    by_cases hlt : absInt (wrap64 (req - id)) < absInt (wrap64 (req - closest))
    · rw [if_pos hlt]
      obtain ⟨h1, h2, h3⟩ := ih id
      refine ⟨?_, le_of_lt (lt_of_le_of_lt h2 hlt), ?_⟩
      · rcases List.mem_cons.mp h1 with he | he
        · exact List.mem_cons.mpr (Or.inr (List.mem_cons.mpr (Or.inl he)))
        · exact List.mem_cons.mpr (Or.inr (List.mem_cons.mpr (Or.inr he)))
      · intro x hx
        rcases List.mem_cons.mp hx with he | he
        · subst he; exact h2
        · exact h3 x he
    · rw [if_neg hlt]
      obtain ⟨h1, h2, h3⟩ := ih closest
      refine ⟨?_, h2, ?_⟩
      · rcases List.mem_cons.mp h1 with he | he
        · exact List.mem_cons.mpr (Or.inl he)
        · exact List.mem_cons.mpr (Or.inr (List.mem_cons.mpr (Or.inr he)))
      · intro x hx
        rcases List.mem_cons.mp hx with he | he
        · subst he; exact le_trans h2 (le_of_not_lt hlt)
        · exact h3 x he

/-- `wrap64` is the identity on values already inside the `int64` range,
stated through the exact absolute value. -/
theorem wrap64_of_small (x : Int) (h : x.natAbs < 2 ^ 63) : wrap64 x = x := by
  have en : (2 : Nat) ^ 63 = 9223372036854775808 := by norm_num
  rw [en] at h
  have e1 : (2 : Int) ^ 63 = 9223372036854775808 := by norm_num
  have e2 : (2 : Int) ^ 64 = 18446744073709551616 := by norm_num
  unfold wrap64
  rw [e1, e2, Int.emod_eq_of_lt (by omega) (by omega)]
  omega

/-- On in-range differences the source's wrapped `abs` computes the exact
absolute value. -/
theorem absInt_of_small (x : Int) (h : x.natAbs < 2 ^ 63) :
    absInt (wrap64 x) = (x.natAbs : Int) := by
  rw [wrap64_of_small x h]
  have en : (2 : Nat) ^ 63 = 9223372036854775808 := by norm_num
  rw [en] at h
  unfold absInt
  by_cases hx : x < 0
  · rw [if_pos hx, wrap64_of_small (-x) (by rw [en]; omega)]
    omega
  · rw [if_neg hx]
    omega

/-! ## Concrete fixtures shared by the claim theorems -/

/-- The service configuration of the repository's own test-suite
(`content/posts`, channel `@testchannel`). -/
def exampleSvc : Service := ⟨"content/posts", "@testchannel"⟩

/-- A JPEG header (the test-suite's `createJPEGBytes`). -/
def bytesJpeg : List Nat := [0xFF, 0xD8, 0xFF, 0xE0, 0x00, 0x10, 0x4A, 0x46, 0x49, 0x46]

/-- A PNG header (the test-suite's `createPNGBytes`). -/
def bytesPng : List Nat := [0x89, 0x50, 0x4E, 0x47, 0x0D, 0x0A, 0x1A, 0x0A]

/-- Posts directory holding the loose files `100.md`, `105.md`, `110.md`. -/
def posts100 : FS :=
  ⟨[.file "100.md" (.text "x"), .file "105.md" (.text "x"), .file "110.md" (.text "x")], []⟩

/-- Posts directory holding the unit `200/` with one media file. -/
def posts200 : FS := ⟨[.dir "200" [("image_0.jpg", .bytes bytesJpeg)]], []⟩

/-- Posts directory holding loose files `600.md`, `601.md`, `602.md`. -/
def posts600 : FS :=
  ⟨[.file "600.md" (.text "t"), .file "601.md" (.text "t"), .file "602.md" (.text "t")], []⟩

/-- Posts directory holding loose files at the extreme `int64` ids
`-9223372036854775808` and `0`. -/
def postsWide : FS :=
  ⟨[.file "-9223372036854775808.md" (.text "x"), .file "0.md" (.text "x")], []⟩

/-- C3 (counterexample): the exact 4-byte PNG signature `89 50 4E 47` is
classified as `"jpg"`, not `"png"`, because the source's PNG test additionally
requires `len(data) >= 8`; the claim as stated (a PNG-prefixed buffer of any
length ≥ 4 yields `"png"`) is therefore false. -/
theorem claim_C3_counterexample :
    ([0x89, 0x50, 0x4E, 0x47] : List Nat).take 4 = [0x89, 0x50, 0x4E, 0x47] ∧
    getImageFormat [0x89, 0x50, 0x4E, 0x47] = "jpg" ∧
    getImageFormat [0x89, 0x50, 0x4E, 0x47] ≠ "png" := by
  refine ⟨by decide, by decide, by decide⟩

/-- C3 (amended): magic-number classification as implemented: a buffer whose
first three bytes are `FF D8 FF` yields `"jpg"`; the PNG signature yields
`"png"` only for buffers of length ≥ 8; the GIF prefix yields `"gif"` only
for length ≥ 6; RIFF with the `WEBP` tag at offset 8 yields `"webp"` only for
length ≥ 12; every buffer shorter than 4 bytes yields `"jpg"`; and the
classifier always returns one of the four tokens (no error path). -/
theorem claim_C3 :
    (∀ data : List Nat, data.take 3 = [0xFF, 0xD8, 0xFF] → getImageFormat data = "jpg")
    ∧ (∀ data : List Nat, 8 ≤ data.length → data.take 4 = [0x89, 0x50, 0x4E, 0x47] →
        getImageFormat data = "png")
    ∧ (∀ data : List Nat, 6 ≤ data.length → data.take 3 = [0x47, 0x49, 0x46] →
        getImageFormat data = "gif")
    ∧ (∀ data : List Nat, 12 ≤ data.length → data.take 4 = [0x52, 0x49, 0x46, 0x46] →
        (data.drop 8).take 4 = [0x57, 0x45, 0x42, 0x50] → getImageFormat data = "webp")
    ∧ (∀ data : List Nat, data.length < 4 → getImageFormat data = "jpg")
    ∧ (∀ data : List Nat, getImageFormat data = "jpg" ∨ getImageFormat data = "png" ∨
        getImageFormat data = "gif" ∨ getImageFormat data = "webp") := by
  refine ⟨?_, ?_, ?_, ?_, ?_, ?_⟩
  · intro data h
    obtain ⟨t, rfl⟩ := take3_eq_cons _ _ _ _ h
    simp only [getImageFormat, List.length_cons]
    split_ifs with h1 h2 h3 h4 h5 <;>
      first
        | rfl
        | exact absurd h3.2.1 (by simp)
        | exact absurd h4.2.1 (by simp)
        | exact absurd h5.2.1 (by simp)
  · intro data hlen h
    obtain ⟨t, rfl⟩ := take4_eq_cons _ _ _ _ _ h
    simp only [List.length_cons] at hlen
    simp only [getImageFormat, List.length_cons]
    split_ifs with h1 h2 h3 h4 h5 <;>
      first
        | rfl
        | exact absurd h1 (by omega)
        | exact absurd h2.2.1 (by simp)
        | exact absurd h4.2.1 (by simp)
        | exact absurd h5.2.1 (by simp)
        | exact absurd ⟨by omega, rfl, rfl, rfl, rfl⟩ h3
  · intro data hlen h
    obtain ⟨t, rfl⟩ := take3_eq_cons _ _ _ _ h
    simp only [List.length_cons] at hlen
    simp only [getImageFormat, List.length_cons]
    split_ifs with h1 h2 h3 h4 h5 <;>
      first
        | rfl
        | exact absurd h1 (by omega)
        | exact absurd h2.2.1 (by simp)
        | exact absurd h3.2.1 (by simp)
        | exact absurd h5.2.1 (by simp)
        | exact absurd ⟨by omega, rfl, rfl, rfl⟩ h4
  · intro data hlen h hw
    obtain ⟨t, rfl⟩ := take4_eq_cons _ _ _ _ _ h
    simp only [List.length_cons] at hlen
    simp only [getImageFormat, List.length_cons]
    split_ifs with h1 h2 h3 h4 h5 <;>
      first
        | rfl
        | exact absurd h1 (by omega)
        | exact absurd h2.2.1 (by simp)
        | exact absurd h3.2.1 (by simp)
        | exact absurd h4.2.1 (by simp)
        | exact absurd ⟨by omega, rfl, rfl, rfl, rfl, hw⟩ h5
  · intro data hlen
    simp [getImageFormat, hlen]
  · intro data
    simp only [getImageFormat]
    split_ifs <;> simp

/-- C3 witness: the amended classification rules evaluated at concrete buffers
(a JPEG header, an 8-byte PNG header, a 6-byte GIF header, a 12-byte WEBP
header, and a 3-byte buffer). -/
theorem claim_C3_witness :
    getImageFormat [0xFF, 0xD8, 0xFF, 0xE0] = "jpg" ∧
    getImageFormat [0x89, 0x50, 0x4E, 0x47, 0x0D, 0x0A, 0x1A, 0x0A] = "png" ∧
    getImageFormat [0x47, 0x49, 0x46, 0x38, 0x39, 0x61] = "gif" ∧
    getImageFormat [0x52, 0x49, 0x46, 0x46, 0, 0, 0, 0, 0x57, 0x45, 0x42, 0x50] = "webp" ∧
    getImageFormat [0, 1, 2] = "jpg" :=
  ⟨claim_C3.1 _ (by decide),
   claim_C3.2.1 _ (by decide) (by decide),
   claim_C3.2.2.1 _ (by decide) (by decide),
   claim_C3.2.2.2.1 _ (by decide) (by decide) (by decide),
   claim_C3.2.2.2.2.1 _ (by decide)⟩

/-! ## Claim C1: physical-shape exclusivity -/

/-- The reachable state of the C1 counterexample: create post `7` with no
media (a loose file `7.md`), then edit it supplying only a new media buffer. -/
def c1Run : Except String FS :=
  match exampleSvc.CreatePost ⟨[], []⟩ ⟨7, "t", "hi", "2024-01-01T00:00:00Z", []⟩ [] with
  | .ok fs1 => exampleSvc.EditPost fs1 ⟨7, "", "", "2024-01-01T00:00:00Z", []⟩ (some bytesJpeg)
  | .error e => .error e

/-- C1 (counterexample): starting from an empty posts directory, the sequence
`CreatePost(7, no media); EditPost(7, new media buffer)` succeeds and leaves
*both* the loose file `7.md` and the directory `7/` on disk, violating the
claimed exclusivity invariant (and its "in particular" clause directly). -/
theorem claim_C1_counterexample :
    (match c1Run with
      | .ok fs => fs.hasLooseMd 7 && fs.hasPostDir 7
      | .error _ => false) = true := by
  decide

/-- C1 (amended): the exclusivity invariant does *not* hold across `EditPost`
with a new media buffer: for every state in which the resolved post exists
only as a loose file (no entry named `<id>` at all), supplying a media buffer
to `EditPost` with no content succeeds and leaves both the loose file
`<id>.md` and the directory `<id>/` on disk — a loose-file post gains a
directory without its markup file being migrated or removed. -/
theorem claim_C1 :
    ∀ (svc : Service) (fs : FS) (post : Post) (b : List Nat),
      post.Content = "" →
      getEditablePostID fs post.ID = post.ID →
      fs.hasLooseMd post.ID = true →
      fs.lookupEntry (toString post.ID) = none →
      ∃ fs2, svc.EditPost fs post (some b) = .ok fs2 ∧
        fs2.hasLooseMd post.ID = true ∧ fs2.hasPostDir post.ID = true := by
  intro svc fs post b hc hres hloose hnone
  have hcontent : editContentStep svc post.ID (getPostImageNames fs post.ID)
      { post with ID := post.ID } fs = .ok fs := by
    unfold editContentStep
    rw [if_neg (by simp [hc])]
  have hEP : svc.EditPost fs post (some b) = editMediaStep svc post.ID post.ID b fs := by
    simp only [Service.EditPost]
    rw [hres, hcontent]
  obtain ⟨fs2, hstep, hpres, hdir⟩ := editMediaStep_promote svc post.ID post.ID b fs hnone
  exact ⟨fs2, hEP.trans hstep, by rw [hpres]; exact hloose, hdir⟩

/-- C1 witness: the amended statement applied to the concrete loose-file
state `{7.md}`. -/
theorem claim_C1_witness :
    ∃ fs2, exampleSvc.EditPost ⟨[.file "7.md" (.text "x")], []⟩
        ⟨7, "", "", "2024-01-01T00:00:00Z", []⟩ (some bytesJpeg) = .ok fs2 ∧
      fs2.hasLooseMd 7 = true ∧ fs2.hasPostDir 7 = true :=
  claim_C1 exampleSvc ⟨[.file "7.md" (.text "x")], []⟩ ⟨7, "", "", "2024-01-01T00:00:00Z", []⟩
    bytesJpeg rfl (by decide) (by decide) (by decide)

/-! ## Claim C2: edit-target resolution -/

/-- C2 (counterexample): with on-disk ids `{-2^63, 0}` and requested id
`2^63 - 1`, Go's wrapping `int64` subtraction makes the distance to `-2^63`
wrap to `-1` (absolute value `1`), so `getEditablePostID` returns `-2^63`
even though `0` is vastly closer in exact arithmetic: resolution does not
minimize the true absolute difference. -/
theorem claim_C2_counterexample :
    scanPostIDs postsWide.readDirNames = [-9223372036854775808, 0] ∧
    getEditablePostID postsWide 9223372036854775807 = -9223372036854775808 ∧
    ((9223372036854775807 : Int) - 0).natAbs <
      ((9223372036854775807 : Int) - (-9223372036854775808)).natAbs :=
  ⟨by decide, by decide, by decide⟩

/-- C2 (corrected): `getEditablePostID` returns an on-disk id minimizing the
*wrapped* `int64` distance (Go's wrapping subtraction `postID - id` followed
by the source's negation-based `abs`), and the requested id unchanged on an
empty store with no error path; whenever every exact difference `|req - id|`
is below `2^63` the wrapped metric coincides with the exact one and the
result is a true nearest id, as in `103 → 105` and `107 → 105` on the store
`{100,105,110}`; the original exact-minimality claim fails only at
wrap-inducing extreme ids. -/
theorem claim_C2 :
    (∀ (fs : FS) (req : Int), scanPostIDs fs.readDirNames = [] →
        getEditablePostID fs req = req)
    ∧ (∀ (fs : FS) (req : Int), scanPostIDs fs.readDirNames ≠ [] →
        getEditablePostID fs req ∈ scanPostIDs fs.readDirNames ∧
        ∀ id ∈ scanPostIDs fs.readDirNames,
          absInt (wrap64 (req - getEditablePostID fs req)) ≤
            absInt (wrap64 (req - id)))
    ∧ (∀ (fs : FS) (req : Int), scanPostIDs fs.readDirNames ≠ [] →
        (∀ id ∈ scanPostIDs fs.readDirNames, (req - id).natAbs < 2 ^ 63) →
        ∀ id ∈ scanPostIDs fs.readDirNames,
          (req - getEditablePostID fs req).natAbs ≤ (req - id).natAbs)
    ∧ getEditablePostID posts100 103 = 105 ∧ getEditablePostID posts100 107 = 105 := by
  have main : ∀ (fs : FS) (req : Int), scanPostIDs fs.readDirNames ≠ [] →
      getEditablePostID fs req ∈ scanPostIDs fs.readDirNames ∧
      ∀ id ∈ scanPostIDs fs.readDirNames,
        absInt (wrap64 (req - getEditablePostID fs req)) ≤ absInt (wrap64 (req - id)) := by
    intro fs req h
    cases hscan : scanPostIDs fs.readDirNames with
    | nil => exact absurd hscan h
    | cons c rest =>
      unfold getEditablePostID
      rw [hscan]
      obtain ⟨h1, h2, h3⟩ := closestLoop_spec req rest c
      refine ⟨h1, ?_⟩
      intro id hid
      rcases List.mem_cons.mp hid with he | he
      · subst he; exact h2
      · exact h3 id he
  refine ⟨?_, main, ?_, by decide, by decide⟩
  · intro fs req h
    unfold getEditablePostID
    rw [h]
  · intro fs req h hsmall id hid
    obtain ⟨hmem, hmin⟩ := main fs req h
    have hle := hmin id hid
    rw [absInt_of_small _ (hsmall id hid), absInt_of_small _ (hsmall _ hmem)] at hle
    exact_mod_cast hle

/-- C2 witness: the empty-store fallback at requested id `42`, the
membership half of wrapped minimality on the store `{100,105,110}`, and the
exact-minimality corollary on the same store at requested id `103` against
the on-disk id `100`. -/
theorem claim_C2_witness :
    getEditablePostID ⟨[], []⟩ 42 = 42 ∧
    getEditablePostID posts100 103 ∈ scanPostIDs posts100.readDirNames ∧
    ((103 : Int) - getEditablePostID posts100 103).natAbs ≤ ((103 : Int) - 100).natAbs :=
  ⟨claim_C2.1 ⟨[], []⟩ 42 (by decide),
   (claim_C2.2.1 posts100 103 (by decide)).1,
   claim_C2.2.2.1 posts100 103 (by decide) (by decide) 100 (by decide)⟩

/-! ## Claim C4: offset naming of edit media -/

/-- C4 (counterexample): requested id `2^63 - 1` resolves (by wrapped
distance) to the on-disk id `-2^63`, and the media half then computes the
index with Go's wrapping `int64` subtraction: the file written is
`image_-1.jpg`, although the exact difference `requested - resolved` is
`2^64 - 1`, not `-1`, so the exact-offset naming claim fails at such ids. -/
theorem claim_C4_counterexample :
    (match exampleSvc.EditPost postsWide
        ⟨9223372036854775807, "", "", "2024-01-01T00:00:00Z", []⟩ (some bytesJpeg) with
      | .ok fs2 => fs2.dirHasFile "-9223372036854775808" "image_-1.jpg"
      | .error _ => false) = true ∧
    (9223372036854775807 : Int) - getEditablePostID postsWide 9223372036854775807 ≠ -1 :=
  ⟨by decide, by decide⟩

/-- C4 (corrected): whenever `EditPost` is given a new media buffer and
succeeds, the resolved unit's directory afterwards contains a media file
named `image_<offset>.<ext>` where `offset` is the *wrapped* `int64`
difference `wrap64 (requestedId - resolvedId)` and `<ext>` the sniffed
format of the buffer; the wrapped offset equals the exact difference
whenever `|requestedId - resolvedId| < 2^63`, and editing the unit created
at id `200` with requested id `205` and a PNG buffer produces
`image_5.png`. -/
theorem claim_C4 :
    (∀ (svc : Service) (fs : FS) (post : Post) (b : List Nat) (fs2 : FS),
      svc.EditPost fs post (some b) = .ok fs2 →
      fs2.dirHasFile (toString (getEditablePostID fs post.ID))
        ("image_" ++ toString (wrap64 (post.ID - getEditablePostID fs post.ID)) ++ "." ++
          getImageFormat b) = true)
    ∧ (∀ req res : Int, (req - res).natAbs < 2 ^ 63 → wrap64 (req - res) = req - res)
    ∧ (match exampleSvc.EditPost posts200 ⟨205, "", "", "2024-01-01T00:00:00Z", []⟩
        (some bytesPng) with
      | .ok fs2 => fs2.dirHasFile "200" "image_5.png"
      | .error _ => false) = true := by
  refine ⟨?_, fun req res h => wrap64_of_small _ h, by decide⟩
  intro svc fs post b fs2 h
  simp only [Service.EditPost] at h
  split at h
  · cases h
  · simp only [editMediaStep] at h
    split at h
    · cases h
    · split at h
      · cases h
      · rename_i fsW hw
        injection h with h2
        subst h2
        rw [dirHasFile_gitAdd]
        exact writeFileInDir_ok_dirHasFile _ _ _ _ _ hw

/-- C4 witness: the wrapped offset-naming statement applied to the concrete
`200`-unit store with requested id `205` and a PNG buffer, together with the
in-range coincidence of the wrapped and exact offsets at `205 - 200`. -/
theorem claim_C4_witness :
    FS.dirHasFile
      ⟨[.dir "200" [("image_0.jpg", .bytes bytesJpeg), ("image_5.png", .bytes bytesPng)]],
        [.add "content/posts/200/image_5.png"]⟩
      (toString (getEditablePostID posts200 205))
      ("image_" ++ toString (wrap64 ((205 : Int) - getEditablePostID posts200 205)) ++ "." ++
        getImageFormat bytesPng) = true ∧
    wrap64 ((205 : Int) - 200) = (205 : Int) - 200 :=
  ⟨claim_C4.1 exampleSvc posts200 ⟨205, "", "", "2024-01-01T00:00:00Z", []⟩ bytesPng
    ⟨[.dir "200" [("image_0.jpg", .bytes bytesJpeg), ("image_5.png", .bytes bytesPng)]],
      [.add "content/posts/200/image_5.png"]⟩ rfl,
   claim_C4.2.1 205 200 (by decide)⟩

/-! ## Supporting lemmas about substring containment and replacement -/

theorem containsSub_nil_pat (v : List Char) : containsSub v [] = true := by
  cases v <;> simp [containsSub, splitFirst]

theorem containsSub_cons_of (pat : List Char) (c : Char) (t : List Char)
    (h : containsSub t pat = true) : containsSub (c :: t) pat = true := by
  unfold containsSub at h ⊢
  unfold splitFirst
  by_cases hp : pat.isPrefixOf (c :: t) = true
  · rw [if_pos hp]
  · rw [if_neg hp]
    cases hs : splitFirst pat t with
    | none => rw [hs] at h; cases h
    | some p =>
      obtain ⟨a1, b1⟩ := p
      simp [hs]

theorem containsSub_append_middle (u pat v : List Char) :
    containsSub (u ++ pat ++ v) pat = true := by
  induction u with
  | nil =>
    simp only [List.nil_append]
    cases pat with
    | nil => simpa using containsSub_nil_pat v
    | cons c t =>
      have hp : (c :: t).isPrefixOf ((c :: t) ++ v) = true :=
        List.isPrefixOf_iff_prefix.mpr ⟨v, rfl⟩
      simp [containsSub, splitFirst, hp]
  | cons c u ih =>
    simp only [List.cons_append]
    exact containsSub_cons_of pat c _ ih

theorem containsSub_of_split (s pat u v : List Char) (h : s = u ++ pat ++ v) :
    containsSub s pat = true := h ▸ containsSub_append_middle u pat v

theorem mem_of_containsSub (s pat : List Char) (h : containsSub s pat = true) :
    ∀ c ∈ pat, c ∈ s := by
  unfold containsSub at h
  cases hs : splitFirst pat s with
  | none => rw [hs] at h; cases h
  | some p =>
    obtain ⟨a, bb⟩ := p
    have hspec := splitFirst_spec pat s a bb hs
    subst hspec
    intro c hc
    simp [List.mem_append, hc]

theorem not_mem_replaceAllF (pat rep : List Char) (c : Char) :
    ∀ (fuel : Nat) (s : List Char), c ∉ s → c ∉ rep → c ∉ replaceAllF pat rep fuel s := by
  intro fuel
  induction fuel with
  | zero => intro s hs _; exact hs
  | succ n ih =>
    intro s hs hr
    simp only [replaceAllF]
    cases hsp : splitFirst pat s with
    | none => exact hs
    | some p =>
      obtain ⟨a, bb⟩ := p
      have hspec := splitFirst_spec pat s a bb hsp
      subst hspec
      simp only [List.mem_append, not_or] at hs
      obtain ⟨⟨ha, -⟩, hb⟩ := hs
      simp only [List.mem_append, not_or]
      exact ⟨⟨ha, hr⟩, ih bb hb hr⟩

theorem not_mem_sReplaceAll (s pat rep : String) (c : Char) (hs : c ∉ s.data)
    (hr : c ∉ rep.data) : c ∉ (sReplaceAll s pat rep).data := by
  show c ∉ replaceAll pat.data rep.data s.data
  unfold replaceAll
  split
  · exact hs
  · exact not_mem_replaceAllF _ _ _ _ _ hs hr

/-! ## Claim C7: conditional extra/images section -/

/-- C7: the front matter contains the `[extra]`/`images` section iff the
image list is non-empty, and with no images the section is entirely absent
(the output is exactly the header block).  The containment direction needs
the title and date not to contain `[` themselves (the builder would copy a
literal `[extra]...` inside the quoted title into its output; TOML-wise that
text would still not be a sub-section, and no real title/date contains it). -/
theorem claim_C7 :
    ∀ p : Post, '[' ∉ p.Title.data → '[' ∉ p.Date.data →
      ((sContains (BuildFrontMatter p) "[extra]\nimages = [" = true) ↔ p.ImageNames ≠ []) ∧
      (p.ImageNames = [] →
        BuildFrontMatter p =
          "+++\n" ++ "title = \"" ++ sReplaceAll p.Title "\"" "\\\"" ++ "\"\n" ++
          "date = " ++ p.Date ++ "\n\n" ++ "+++\n\n") := by
  intro p htitle hdate
  constructor
  · constructor
    · intro hcontains
      intro hempty
      have hmem : '[' ∈ (BuildFrontMatter p).data :=
        mem_of_containsSub _ _ hcontains '[' (by decide)
      unfold BuildFrontMatter at hmem
      rw [if_neg (by simp [hempty])] at hmem
      simp only [String.data_append, List.mem_append] at hmem
      rcases hmem with ((((((((h | h) | h) | h) | h) | h) | h) | h) | h) <;>
        first
          | exact absurd h (by decide)
          | exact absurd h htitle
          | exact absurd h hdate
          | exact absurd h (not_mem_sReplaceAll _ _ _ _ htitle (by decide))
    · intro hne
      have hlen : p.ImageNames.length > 0 := by
        cases hni : p.ImageNames with
        | nil => exact absurd hni hne
        | cons a t => simp
      unfold sContains BuildFrontMatter
      rw [if_pos hlen]
      apply containsSub_of_split _ _
        (("+++\n" ++ "title = \"" ++ sReplaceAll p.Title "\"" "\\\"" ++ "\"\n" ++
          "date = " ++ p.Date ++ "\n\n").data)
        ((quoteJoin p.ImageNames ++ "]\n" ++ "+++\n\n").data)
      simp [String.data_append, List.append_assoc]
  · intro hempty
    unfold BuildFrontMatter
    rw [if_neg (by simp [hempty])]
    simp

/-- C7 witness: the iff evaluated on a one-image post and an imageless post
(section present resp. absent). -/
theorem claim_C7_witness :
    sContains (BuildFrontMatter ⟨1, "t", "c", "2024-01-01T00:00:00Z", ["image_0.jpg"]⟩)
      "[extra]\nimages = [" = true ∧
    sContains (BuildFrontMatter ⟨1, "t", "c", "2024-01-01T00:00:00Z", []⟩)
      "[extra]\nimages = [" ≠ true := by
  constructor
  · exact (claim_C7 ⟨1, "t", "c", "2024-01-01T00:00:00Z", ["image_0.jpg"]⟩ (by decide)
      (by decide)).1.mpr (by decide)
  · intro hcon
    exact (claim_C7 ⟨1, "t", "c", "2024-01-01T00:00:00Z", []⟩ (by decide)
      (by decide)).1.mp hcon rfl

/-! ## Claims C5 and C6: code-block preservation and determinism -/

/-- Successive containment of each pattern, in order, moving left to right. -/
def containsInOrder : List Char → List (List Char) → Bool
  | _, [] => true
  | s, pat :: pats =>
    match splitFirst pat s with
    | none => false
    | some (_, rest) => containsInOrder rest pats

theorem charOfNat_toNat (n : Nat) (h : n.isValidChar) : (Char.ofNat n).toNat = n := by
  simp only [Char.ofNat, Char.ofNatAux, Char.toNat, h, dif_pos]
  rfl

theorem placeholder_inj (i j : Nat) (hi : (65 + i).isValidChar) (hj : (65 + j).isValidChar)
    (hij : i ≠ j) : placeholder i ≠ placeholder j := by
  intro he
  unfold placeholder at he
  rw [List.append_assoc, List.append_assoc] at he
  have he2 := List.append_cancel_left he
  have hc : Char.ofNat (65 + i) = Char.ofNat (65 + j) := by
    injection he2
  have : (65 : Nat) + i = 65 + j := by
    rw [← charOfNat_toNat (65 + i) hi, ← charOfNat_toNat (65 + j) hj, hc]
  omega

/-- A representative two-block input: surrounding text with newlines, two
fenced blocks with different languages, a multi-line first body. -/
def twoBlockInput : String :=
  "hello\n<pre><code class=\"language-go\">a := 1\nb := 2\n</code></pre>\nmid\n<pre><code class=\"language-py\">print(2)</code></pre>\nbye"

/-- An adversarial input whose first code-block body is exactly the second
block's placeholder token. -/
def advInput : String :=
  "<pre><code class=\"language-a\">___CODEBLOCK_B___</code></pre><pre><code class=\"language-b\">x</code></pre>"

set_option maxRecDepth 10000 in
/-- C5 (counterexample): on an input whose first block's body is the second
block's placeholder token, reinsertion substitutes the second block's text
into the first block's interior: the input contains the first fenced source
block verbatim, but the output does not contain its fenced rendering
`\x60\x60\x60a\n___CODEBLOCK_B___\n\x60\x60\x60` — its interior whitespace/content was
modified — refuting the claim as stated for arbitrary inputs. -/
theorem claim_C5_counterexample :
    containsSub advInput.data
      "<pre><code class=\"language-a\">___CODEBLOCK_B___</code></pre>".data = true ∧
    containsSub (ProcessContent advInput).data "```a\n___CODEBLOCK_B___\n```".data = false := by
  refine ⟨by decide, by decide⟩

set_option maxRecDepth 10000 in
/-- C5 (amended): every two distinct code-block indices with valid code
points receive distinct placeholders, so reinsertion of one block can never
land at another block's *placeholder* position; and on inputs whose bodies
and surrounding text contain no placeholder token — verified on the
representative `twoBlockInput` — the output contains the fenced blocks in
order with matching language tags and unmodified interior whitespace, with
no placeholder residue.  (On adversarial inputs whose bodies contain
placeholder tokens the preservation fails, per the counterexample.) -/
theorem claim_C5 :
    (∀ i j : Nat, (65 + i).isValidChar → (65 + j).isValidChar → i ≠ j →
      placeholder i ≠ placeholder j)
    ∧ containsInOrder (ProcessContent twoBlockInput).data
        ["```go\na := 1\nb := 2\n```".data, "```py\nprint(2)\n```".data] = true
    ∧ containsSub (ProcessContent twoBlockInput).data "___CODEBLOCK_".data = false := by
  refine ⟨placeholder_inj, by decide, by decide⟩

/-- C5 witness: distinctness of the first two placeholders, and the
two-block preservation instance. -/
theorem claim_C5_witness :
    placeholder 0 ≠ placeholder 1 ∧
    containsInOrder (ProcessContent twoBlockInput).data
      ["```go\na := 1\nb := 2\n```".data, "```py\nprint(2)\n```".data] = true :=
  ⟨claim_C5.1 0 1 (by decide) (by decide) (by decide), claim_C5.2.1⟩

set_option maxRecDepth 10000 in
/-- C6 (counterexample): Go iterates the placeholder map in unspecified
order when reinserting code blocks; on `advInput` the two admissible orders
(insertion order and its reverse) produce different outputs, so two
invocations of the transformation on the same input can disagree — the
transformer is not deterministic as claimed. -/
theorem claim_C6_counterexample :
    List.Perm (extractTable advInput).reverse (extractTable advInput) ∧
    processContentWith (extractTable advInput).reverse advInput ≠
      processContentWith (extractTable advInput) advInput :=
  ⟨List.reverse_perm _, by decide⟩

/-- C6 (amended): the transformer is a pure function of the input *and* the
map iteration order used at reinsertion: two invocations agree whenever that
order agrees, and for inputs yielding at most one code block the output is
independent of the order altogether; with two or more blocks, adversarial
bodies make the output order-dependent (see the counterexample). -/
theorem claim_C6 :
    (∀ (content : String) (ord : List (List Char × List Char)),
      ord = extractTable content → processContentWith ord content = ProcessContent content)
    ∧ (∀ (content : String) (ord : List (List Char × List Char)),
      ord.Perm (extractTable content) → (extractTable content).length ≤ 1 →
      processContentWith ord content = ProcessContent content) := by
  constructor
  · intro content ord h
    rw [h]
    rfl
  · intro content ord hperm hlen
    have hord : ord = extractTable content := by
      match htab : extractTable content with
      | [] =>
        rw [htab] at hperm
        exact List.perm_nil.mp hperm
      | [a] =>
        rw [htab] at hperm
        exact List.perm_singleton.mp hperm
      | a :: b :: t =>
        rw [htab] at hlen
        simp at hlen
    rw [hord]
    rfl

/-- A one-block input for the order-independence instance. -/
def oneBlockInput : String := "<pre><code class=\"language-go\">x</code></pre>"

/-- C6 witness: order-independence on a single-block input, with the
reversed iteration order. -/
theorem claim_C6_witness :
    processContentWith (extractTable oneBlockInput).reverse oneBlockInput =
      ProcessContent oneBlockInput :=
  claim_C6.2 oneBlockInput (extractTable oneBlockInput).reverse
    (List.reverse_perm _) (by decide)

/-! ## Claims C8 and C10: delete-batch error handling -/

theorem deleteLoop_abort (svc : Service) (bad : String) (rest : List String)
    (hbad : ¬trimSpace bad = "") (hparse : parseInt64 (trimSpace bad) = none) :
    ∀ (pre : List String) (fs : FS),
      (∀ e ∈ pre, trimSpace e = "" ∨ (parseInt64 (trimSpace e)).isSome) →
      deleteLoop svc fs (pre ++ bad :: rest) =
        ((deleteLoop svc fs pre).1, some ("invalid post ID: " ++ trimSpace bad)) := by
  intro pre
  induction pre with
  | nil =>
    intro fs _
    simp only [List.nil_append, deleteLoop]
    rw [if_neg hbad, hparse]
  | cons e pre ih =>
    intro fs hpre
    have he := hpre e (List.mem_cons_self e pre)
    simp only [List.cons_append, deleteLoop]
    rcases he with he | he
    · simp only [if_pos he]
      exact ih fs (fun x hx => hpre x (List.mem_cons_of_mem _ hx))
    · have hne : ¬trimSpace e = "" := by
        intro h0
        rw [h0] at he
        simp [parseInt64] at he
      obtain ⟨k, hk⟩ := Option.isSome_iff_exists.mp he
      simp only [if_neg hne, hk]
      exact ih (deleteOneStep svc fs k) (fun x hx => hpre x (List.mem_cons_of_mem _ hx))

/-- C8: a batch entry that is non-empty after trimming but fails to parse as
an integer makes `DeletePost` return the error `invalid post ID: <entry>`
before any filesystem mutation for that entry or any later entry, and
without committing — while the deletions performed for the entries processed
earlier in the batch remain in effect (the resulting state is exactly the
state after running the loop on the earlier entries alone). -/
theorem claim_C8 :
    ∀ (svc : Service) (fs : FS) (ids : String) (pre : List String) (bad : String)
      (rest : List String),
      sSplit ids "," = pre ++ bad :: rest →
      (∀ e ∈ pre, trimSpace e = "" ∨ (parseInt64 (trimSpace e)).isSome) →
      ¬trimSpace bad = "" →
      parseInt64 (trimSpace bad) = none →
      svc.DeletePost fs ids =
        ((deleteLoop svc fs pre).1, some ("invalid post ID: " ++ trimSpace bad)) := by
  intro svc fs ids pre bad rest hsplit hpre hbad hparse
  unfold Service.DeletePost
  rw [hsplit, deleteLoop_abort svc bad rest hbad hparse pre fs hpre]

set_option maxRecDepth 4000 in
/-- C8 witness: deleting `"600,abc,601"` on the store `{600,601,602}`
aborts with `invalid post ID: abc`, having deleted `600` but neither `601`
nor `602`, and no commit is recorded. -/
theorem claim_C8_witness :
    exampleSvc.DeletePost posts600 "600,abc,601" =
      ((deleteLoop exampleSvc posts600 ["600"]).1,
        some ("invalid post ID: " ++ trimSpace "abc")) :=
  claim_C8 exampleSvc posts600 "600,abc,601" ["600"] "abc" ["601"]
    (by decide) (by decide) (by decide) (by decide)

theorem deleteLoop_filter (svc : Service) :
    ∀ (entries : List String) (fs : FS),
      deleteLoop svc fs entries =
        deleteLoop svc fs (entries.filter (fun e => !(trimSpace e == ""))) := by
  intro entries
  induction entries with
  | nil => intro fs; rfl
  | cons e rest ih =>
    intro fs
    by_cases he : trimSpace e = ""
    · have hf : (!(trimSpace e == "")) = false := by simp [he]
      simp only [deleteLoop, List.filter_cons, hf, if_pos he]
      simp only [Bool.false_eq_true, if_false]
      exact ih fs
    · have hf : (!(trimSpace e == "")) = true := by simp [he]
      cases hp : parseInt64 (trimSpace e) with
      | none => simp only [deleteLoop, List.filter_cons, hf, if_true, if_neg he, hp]
      | some k =>
        simp only [deleteLoop, List.filter_cons, hf, if_true, if_neg he, hp]
        exact ih (deleteOneStep svc fs k)

set_option maxRecDepth 4000 in
/-- C10: batch entries that are empty after trimming are silently skipped —
the delete loop behaves exactly as if those fields were filtered out, so
they cause no parse error and no filesystem action, and they do not prevent
later entries from being processed: `"600,,601"` deletes `600` and `601`
(leaving `602`) and commits, and a trailing comma in `"600,"` is harmless. -/
theorem claim_C10 :
    (∀ (svc : Service) (entries : List String) (fs : FS),
      deleteLoop svc fs entries =
        deleteLoop svc fs (entries.filter (fun e => !(trimSpace e == ""))))
    ∧ (exampleSvc.DeletePost posts600 "600,,601").2 = none
    ∧ (exampleSvc.DeletePost posts600 "600,,601").1.entries = [.file "602.md" (.text "t")]
    ∧ (exampleSvc.DeletePost posts600 "600,").2 = none
    ∧ (exampleSvc.DeletePost posts600 "600,").1.entries =
        [.file "601.md" (.text "t"), .file "602.md" (.text "t")] := by
  refine ⟨fun svc entries fs => deleteLoop_filter svc entries fs, by decide, by decide,
    by decide, by decide⟩

/-! ## Claim C9: no residual trailing address token -/

/-- Whether the string ends (up to one final newline, which the regex's
`\n?$` also admits) in a token `0x` followed by one or more hex digits.
A suffix of that shape exists iff the maximal trailing hex run is non-empty
and immediately preceded by the two characters `0x` — any shorter trailing
hex run would have to stop at a non-hex character inside the maximal run. -/
def endsWithAddrToken (s : String) : Bool :=
  let l := s.data
  let l1 := if l.getLast? = some '\n' then l.dropLast else l
  let r := l1.reverse
  let h := r.takeWhile isHexDigit
  (!h.isEmpty) && ((r.drop h.length).take 2 == ['x', '0'])

/-- C9 (counterexample): on `"0xA0xB"` the single replacement pass matches
only the final token `0xB` (no match can start at position 0, because the
hex run `A0` is not followed by an end-of-line), producing `"0xA"` — which
still ends in the address token `0xA`.  `removeAddressPattern` therefore can
leave a residual trailing `0x…` token, refuting the claim. -/
theorem claim_C9_counterexample :
    RemoveAddressPattern "0xA0xB" = "0xA" ∧
    endsWithAddrToken (RemoveAddressPattern "0xA0xB") = true := by
  refine ⟨by decide, by decide⟩

end Postpal

namespace Postpal

theorem splitFirst_cons (pat : List Char) (c : Char) (t : List Char) :
    splitFirst pat (c :: t) =
      if pat.isPrefixOf (c :: t) then some ([], (c :: t).drop pat.length)
      else
        match splitFirst pat t with
        | none => none
        | some (a, b) => some (c :: a, b) := rfl

theorem containsSub_cons_eq (pat : List Char) (c : Char) (t : List Char) :
    containsSub (c :: t) pat = (pat.isPrefixOf (c :: t) || containsSub t pat) := by
  unfold containsSub
  rw [splitFirst_cons]
  by_cases hp : pat.isPrefixOf (c :: t) = true
  · simp [hp]
  · rw [if_neg hp]
    cases hs : splitFirst pat t with
    | none => simp [hs, hp]
    | some p =>
      obtain ⟨a1, b1⟩ := p
      simp [hs, hp]

theorem takeWhile_all (p : Char → Bool) :
    ∀ l : List Char, l.all p = true → l.takeWhile p = l := by
  intro l h
  induction l with
  | nil => rfl
  | cons c t ih =>
    simp only [List.all_cons, Bool.and_eq_true] at h
    simp [List.takeWhile_cons, h.1, ih h.2]

theorem removeAddrScanF_nil : ∀ f : Nat, removeAddrScanF f [] = [] := by
  intro f
  cases f <;> rfl

theorem matchAddrCore_tok (H : List Char) (hne : H ≠ []) (hhex : H.all isHexDigit = true) :
    matchAddrCore ('0' :: 'x' :: H) = some (2 + H.length) := by
  simp only [matchAddrCore]
  rw [if_pos (by simp)]
  rw [takeWhile_all isHexDigit H hhex]
  cases H with
  | nil => exact absurd rfl hne
  | cons h1 H1 =>
    simp only [List.length_cons, tryHexEnd]
    rw [show (h1 :: H1).drop (H1.length + 1) = [] from by
      simp [List.drop_succ_cons, List.drop_length]]
    simp only [matchNlEol, Option.map_some', Option.some.injEq]

theorem matchAddr_tok (H : List Char) (hne : H ≠ []) (hhex : H.all isHexDigit = true) :
    matchAddr ('0' :: 'x' :: H) = some (2 + H.length) := by
  cases H with
  | nil => exact absurd rfl hne
  | cons h1 H1 =>
    simp only [matchAddr]
    rw [if_neg (by simp [isReSpace])]
    exact matchAddrCore_tok (h1 :: H1) (by simp) hhex

end Postpal

namespace Postpal

theorem not_ox_head (x y : Char) (r : List Char)
    (h : containsSub (x :: y :: r) ['0', 'x'] = false) : ¬(x = '0' ∧ y = 'x') := by
  rintro ⟨hx, hy⟩
  subst hx
  subst hy
  rw [containsSub_cons_eq] at h
  simp [List.isPrefixOf] at h

theorem containsSub_tail (x : Char) (r : List Char) (pat : List Char)
    (h : containsSub (x :: r) pat = false) : containsSub r pat = false := by
  rw [containsSub_cons_eq] at h
  cases hr : containsSub r pat with
  | false => rfl
  | true => rw [hr] at h; simp at h

theorem matchAddrCore_cons2_none (c p1 : Char) (r : List Char)
    (h : ¬(c = '0' ∧ p1 = 'x')) : matchAddrCore (c :: p1 :: r) = none := by
  by_cases hc : c = '0'
  · by_cases hp : p1 = 'x'
    · exact absurd ⟨hc, hp⟩ h
    · simp [matchAddrCore, hp]
  · simp [matchAddrCore, hc]

theorem matchAddr_clean (H : List Char) (hne : H ≠ []) (hhex : H.all isHexDigit = true) :
    ∀ (c : Char) (P : List Char), containsSub (c :: P) ['0', 'x'] = false →
      ∀ n : Nat, matchAddr ((c :: P) ++ '0' :: 'x' :: H) = some n →
        n = ((c :: P) ++ '0' :: 'x' :: H).length := by
  intro c P
  match P with
  | [] =>
    intro hP n hm
    simp only [List.cons_append, List.nil_append, matchAddr] at hm
    rw [if_neg (by simp)] at hm
    rw [matchAddrCore_cons2_none c '0' _ (by simp)] at hm
    cases hm
  | [p1] =>
    intro hP n hm
    simp only [List.cons_append, List.nil_append, matchAddr] at hm
    rw [if_neg (by simp)] at hm
    rw [matchAddrCore_cons2_none c p1 _ (not_ox_head c p1 _ hP)] at hm
    cases hm
  | [p1, p2] =>
    intro hP n hm
    simp only [List.cons_append, List.nil_append, matchAddr] at hm
    split at hm
    · simp only [matchAddrCore_tok H hne hhex] at hm
      injection hm with hn
      simp only [List.cons_append, List.nil_append, List.length_cons, List.length_append]
      omega
    · rw [matchAddrCore_cons2_none c p1 _ (not_ox_head c p1 _ hP)] at hm
      cases hm
  | p1 :: p2 :: p3 :: P4 =>
    intro hP n hm
    have h1 : containsSub (p1 :: p2 :: p3 :: P4) ['0', 'x'] = false :=
      containsSub_tail _ _ _ hP
    have h2 : containsSub (p2 :: p3 :: P4) ['0', 'x'] = false :=
      containsSub_tail _ _ _ h1
    have h3 : containsSub (p3 :: P4) ['0', 'x'] = false :=
      containsSub_tail _ _ _ h2
    simp only [List.cons_append, matchAddr] at hm
    split at hm
    · cases hP4 : P4 with
      | nil =>
        subst hP4
        simp only [List.nil_append] at hm
        rw [matchAddrCore_cons2_none p3 '0' _ (by simp)] at hm
        rw [matchAddrCore_cons2_none c p1 _ (not_ox_head c p1 _ hP)] at hm
        cases hm
      | cons q P5 =>
        subst hP4
        simp only [List.cons_append] at hm
        rw [matchAddrCore_cons2_none p3 q _ (not_ox_head p3 q _ h3)] at hm
        rw [matchAddrCore_cons2_none c p1 _ (not_ox_head c p1 _ hP)] at hm
        cases hm
    · rw [matchAddrCore_cons2_none c p1 _ (not_ox_head c p1 _ hP)] at hm
      cases hm

end Postpal

namespace Postpal

theorem removeAddrScanF_clean (H : List Char) (hne : H ≠ []) (hhex : H.all isHexDigit = true) :
    ∀ (P : List Char) (fuel : Nat), (P ++ '0' :: 'x' :: H).length ≤ fuel →
      containsSub P ['0', 'x'] = false →
      ∃ m : Nat, removeAddrScanF fuel (P ++ '0' :: 'x' :: H) = P.take m := by
  intro P
  induction P with
  | nil =>
    intro fuel hf hP
    cases fuel with
    | zero =>
      exfalso
      simp only [List.nil_append, List.length_cons] at hf
      omega
    | succ f =>
      refine ⟨0, ?_⟩
      simp only [List.nil_append, removeAddrScanF, matchAddr_tok H hne hhex]
      have hlen : 2 + H.length = ('0' :: 'x' :: H).length := by
        simp only [List.length_cons]
        omega
      rw [hlen, List.drop_length, removeAddrScanF_nil]
      rfl
  | cons c P ih =>
    intro fuel hf hP
    cases fuel with
    | zero =>
      exfalso
      simp only [List.cons_append, List.length_cons] at hf
      omega
    | succ f =>
      simp only [List.cons_append, removeAddrScanF]
      cases hm : matchAddr (c :: (P ++ '0' :: 'x' :: H)) with
      | some n =>
        have hn := matchAddr_clean H hne hhex c P hP n hm
        refine ⟨0, ?_⟩
        show removeAddrScanF f ((c :: (P ++ '0' :: 'x' :: H)).drop n) = List.take 0 (c :: P)
        have hd : (c :: (P ++ '0' :: 'x' :: H)).drop n = [] := by
          rw [hn]
          exact List.drop_length _
        rw [hd, removeAddrScanF_nil]
        rfl
      | none =>
        have hP' : containsSub P ['0', 'x'] = false := containsSub_tail c P _ hP
        obtain ⟨m, hm2⟩ := ih f
          (by simp only [List.cons_append, List.length_cons] at hf; omega) hP'
        refine ⟨m + 1, ?_⟩
        show c :: removeAddrScanF f (P ++ '0' :: 'x' :: H) = List.take (m + 1) (c :: P)
        rw [hm2]
        rfl

theorem removeAddrScan_clean (P H : List Char) (hne : H ≠ [])
    (hhex : H.all isHexDigit = true) (hP : containsSub P ['0', 'x'] = false) :
    ∃ m : Nat, removeAddrScan (P ++ '0' :: 'x' :: H) = P.take m :=
  removeAddrScanF_clean H hne hhex P _ (le_refl _) hP

theorem containsSub_append_left (u w pat : List Char)
    (h : containsSub u pat = true) : containsSub (u ++ w) pat = true := by
  unfold containsSub at h
  cases hs : splitFirst pat u with
  | none => rw [hs] at h; cases h
  | some p =>
    obtain ⟨a, b⟩ := p
    have hu := splitFirst_spec pat u a b hs
    refine containsSub_of_split (u ++ w) pat a (b ++ w) ?_
    rw [hu]
    simp [List.append_assoc]

theorem containsSub_take (l pat : List Char) (m : Nat)
    (h : containsSub (l.take m) pat = true) : containsSub l pat = true := by
  have := containsSub_append_left (l.take m) (l.drop m) pat h
  rwa [List.take_append_drop] at this

end Postpal

namespace Postpal

theorem endsWith_body (l1 : List Char) (k : Nat)
    (h2 : (l1.reverse.drop k).take 2 = ['x', '0']) :
    containsSub l1 ['0', 'x'] = true := by
  have hsplit : l1.reverse.take k ++ l1.reverse.drop k = l1.reverse :=
    List.take_append_drop k l1.reverse
  cases hd : l1.reverse.drop k with
  | nil =>
    rw [hd] at h2
    exact absurd (h2 : ([] : List Char) = ['x', '0']) (by simp)
  | cons x t' =>
    cases t' with
    | nil =>
      rw [hd] at h2
      have h2' : ([x] : List Char) = ['x', '0'] := h2
      injection h2' with _ h3
      exact absurd h3 (by simp)
    | cons y t2 =>
      rw [hd] at h2 hsplit
      have h2' : ([x, y] : List Char) = ['x', '0'] := h2
      injection h2' with hx1 hrest
      injection hrest with hy1 _
      subst hx1
      subst hy1
      have hrev := congrArg List.reverse hsplit
      rw [List.reverse_reverse] at hrev
      refine containsSub_of_split l1 ['0', 'x'] t2.reverse (l1.reverse.take k).reverse ?_
      rw [← hrev]
      simp only [List.reverse_append, List.reverse_cons, List.append_assoc,
        List.nil_append, List.cons_append, List.reverse_reverse]
      rw [hsplit]

theorem endsWithAddrToken_eq (l : List Char) :
    endsWithAddrToken ⟨l⟩ =
      ((!((if l.getLast? = some '\n' then l.dropLast else l).reverse.takeWhile
            isHexDigit).isEmpty) &&
       (((if l.getLast? = some '\n' then l.dropLast else l).reverse.drop
           ((if l.getLast? = some '\n' then l.dropLast else l).reverse.takeWhile
             isHexDigit).length).take 2 == ['x', '0'])) := rfl

theorem endsWith_contains (l : List Char) (h : endsWithAddrToken ⟨l⟩ = true) :
    containsSub l ['0', 'x'] = true := by
  rw [endsWithAddrToken_eq] at h
  by_cases hlast : l.getLast? = some '\n'
  · rw [if_pos hlast] at h
    simp only [Bool.and_eq_true, beq_iff_eq] at h
    have hc := endsWith_body l.dropLast _ h.2
    obtain ⟨l', hl'⟩ := List.getLast?_eq_some_iff.mp hlast
    have hdl : l.dropLast ++ ['\n'] = l := by
      rw [hl']
      simp
    rw [← hdl]
    exact containsSub_append_left _ _ _ hc
  · rw [if_neg hlast] at h
    simp only [Bool.and_eq_true, beq_iff_eq] at h
    exact endsWith_body l _ h.2

/-- C9 (corrected): the single replacement pass of `removeAddressPattern` on a
content of the form `P ++ "0x" ++ hex` whose prefix `P` nowhere contains the
two-character sequence `0x` removes the trailing address token: the result is
a prefix of `P` (`P.take m` for some `m`) and ends in no address token.  The
original universal claim fails only when the removed match exposes preceding
text that itself ends in `0x<hex>`, as in the `"0xA0xB" → "0xA"`
counterexample. -/
theorem claim_C9 (P H : List Char) (hP : containsSub P ['0', 'x'] = false)
    (hne : H ≠ []) (hhex : H.all isHexDigit = true) :
    (∃ m : Nat, RemoveAddressPattern ⟨P ++ '0' :: 'x' :: H⟩ = ⟨P.take m⟩) ∧
    endsWithAddrToken (RemoveAddressPattern ⟨P ++ '0' :: 'x' :: H⟩) = false := by
  obtain ⟨m, hm⟩ := removeAddrScan_clean P H hne hhex hP
  have hres : RemoveAddressPattern ⟨P ++ '0' :: 'x' :: H⟩ = ⟨P.take m⟩ := by
    show String.mk (removeAddrScan (P ++ '0' :: 'x' :: H)) = String.mk (P.take m)
    rw [hm]
  refine ⟨⟨m, hres⟩, ?_⟩
  rw [hres]
  cases hend : endsWithAddrToken ⟨P.take m⟩ with
  | false => rfl
  | true =>
    exfalso
    have hc := containsSub_take P ['0', 'x'] m (endsWith_contains (P.take m) hend)
    rw [hc] at hP
    cases hP

theorem claim_C9_witness :
    containsSub "hello  \n".data ['0', 'x'] = false ∧
    "DEAD".data ≠ [] ∧
    "DEAD".data.all isHexDigit = true ∧
    ((∃ m : Nat, RemoveAddressPattern ⟨"hello  \n".data ++ '0' :: 'x' :: "DEAD".data⟩ =
        ⟨"hello  \n".data.take m⟩) ∧
     endsWithAddrToken (RemoveAddressPattern ⟨"hello  \n".data ++ '0' :: 'x' :: "DEAD".data⟩) =
       false) :=
  ⟨by decide, by decide, by decide,
   claim_C9 "hello  \n".data "DEAD".data (by decide) (by decide) (by decide)⟩

end Postpal
